import Mathlib

/-!
Shallow embedding of the `steadyflow` graph library (`src/index.js`): a
persistent DAG with incremental topological layering and hybrid cycle
detection.  Immutable.js maps and sets are modelled as association lists
and lists; JS exceptions (the `Cycle detected` error and the `TypeError`s
raised by reading a property of `undefined`/`null`) are modelled with
`Except`.  The two worklist loops of `_updateLayers` and the recursive
DFS/BFS are modelled with explicit fuel; fuel is chosen generously and a
fuel-out result is only reachable on runs where the JS code would itself
not terminate normally.
-/

namespace SteadyFlow

/-- A node record `{ id, data }`; `data` is opaque. -/
structure Node where
  id : String
  data : Option String := none
deriving DecidableEq, Repr

/-- An edge record `{ sourceId, targetId, sourcePort?, targetPort?, data }`. -/
structure Edge where
  sourceId : String
  targetId : String
  sourcePort : Option String := none
  targetPort : Option String := none
  data : Option String := none
deriving DecidableEq, Repr

/-- Association-list model of an Immutable.js `Map`.  `set` replaces in
place (preserving position, like JS insertion-order iteration), `delete`
removes the key. -/
abbrev AMap (κ α : Type) := List (κ × α)

def aget [BEq κ] (m : AMap κ α) (k : κ) : Option α :=
  (m.find? (fun p => p.1 == k)).map (·.2)

def aset [BEq κ] (m : AMap κ α) (k : κ) (v : α) : AMap κ α :=
  match m with
  | [] => [(k, v)]
  | (k', v') :: t => if k' == k then (k, v) :: t else (k', v') :: aset t k v

def adel [BEq κ] (m : AMap κ α) (k : κ) : AMap κ α :=
  m.filter (fun p => p.1 != k)

def ahas [BEq κ] (m : AMap κ α) (k : κ) : Bool :=
  (aget m k).isSome

def akeys (m : AMap κ α) : List κ :=
  m.map (·.1)

def asize (m : AMap κ α) : Nat :=
  m.length

/-- List model of an Immutable.js `Set` of strings: membership, add (appends
when absent, so iteration follows insertion order), remove. -/
abbrev SSet := List String

def sadd (s : SSet) (x : String) : SSet :=
  if s.contains x then s else s ++ [x]

def sdel (s : SSet) (x : String) : SSet :=
  s.filter (fun y => y != x)

/-- A layer record `{ id, index, nodes }`.  `id` is the stable layer id,
`index` the current position. -/
structure Layer where
  id : Nat
  index : Nat
  nodes : SSet
deriving DecidableEq, Repr

/-- The index state of one graph version: the seven persistent maps of the
`Graph` constructor plus the layer-id counter.  (`nodeLayout` is carried by
the source but never read or written by any of the algorithms modelled
here, so it is omitted.) -/
structure GState where
  nodeMap : AMap String Node
  edgeMap : AMap String Edge
  layerMap : AMap String Nat
  layers : AMap Nat Layer
  layerList : List Nat
  predMap : AMap String SSet
  succMap : AMap String SSet
  nextLayerId : Nat
deriving DecidableEq, Repr

def emptyGState : GState :=
  { nodeMap := [], edgeMap := [], layerMap := [], layers := [], layerList := []
    predMap := [], succMap := [], nextLayerId := 0 }

/-- A batch change log (the `Mutator`'s four lists). -/
structure Changes where
  addedNodes : List Node := []
  removedNodes : List Node := []
  addedEdges : List Edge := []
  removedEdges : List Edge := []
deriving DecidableEq, Repr

/-- Errors a commit can raise: the `Cycle detected` error carrying the
ordered cycle of node ids, or a JS `TypeError` from reading the given
property of `undefined`/`null` (e.g. `"nodes"` from
`this.layers.get(undefined).nodes`, `"add"` from `predSet.add` when
`predSet` is `undefined`, `"map"` from `route.map` when `route` is `null`).
`typeError "fuel"` is an embedding artifact marking fuel exhaustion of a
loop; commits evaluated in this file never reach it. -/
inductive Err where
  | cycleDetected (cycle : List String)
  | typeError (prop : String)
deriving DecidableEq, Repr

/-- The error is a `TypeError`, not a cycle report. -/
def IsTypeErr (e : Err) : Prop := ∃ p, e = Err.typeError p

/-- `edgeId(edge)`: `"{sourceId[.sourcePort]}-{targetId[.targetPort]}"`. -/
def edgeIdOf (e : Edge) : String :=
  let s := e.sourceId ++ (match e.sourcePort with | some p => "." ++ p | none => "")
  let t := e.targetId ++ (match e.targetPort with | some p => "." ++ p | none => "")
  s ++ "-" ++ t

/-! ### Queries -/

def isEmptyG (g : GState) : Bool := g.nodeMap.isEmpty

def hasNodeG (g : GState) (id : String) : Bool := ahas g.nodeMap id

def hasEdgeG (g : GState) (id : String) : Bool := ahas g.edgeMap id

def getNodeG (g : GState) (id : String) : Option Node := aget g.nodeMap id

def getEdgeG (g : GState) (id : String) : Option Edge := aget g.edgeMap id

/-- `_pred(id)`: the incoming edge-id set, empty when absent. -/
def predIds (g : GState) (id : String) : SSet :=
  (aget g.predMap id).getD []

/-- `_succ(id)`: the outgoing edge-id set, empty when absent. -/
def succIds (g : GState) (id : String) : SSet :=
  (aget g.succMap id).getD []

/-- `predNodes(id)`: sources of the incoming edges.  (The source reads
`this.getEdge(id).sourceId`; an edge id present in `predMap` is always
present in `edgeMap`, so the `filterMap` skip-on-missing branch is dead.) -/
def predNodes (g : GState) (id : String) : List String :=
  (predIds g id).filterMap (fun e => (getEdgeG g e).map (·.sourceId))

def succNodes (g : GState) (id : String) : List String :=
  (succIds g id).filterMap (fun e => (getEdgeG g e).map (·.targetId))

/-- `predEdges(id)` as edge records. -/
def predEdges (g : GState) (id : String) : List Edge :=
  (predIds g id).filterMap (fun e => getEdgeG g e)

def succEdges (g : GState) (id : String) : List Edge :=
  (succIds g id).filterMap (fun e => getEdgeG g e)

/-- `layerOf(id)` = `this.layers.get(this.layerMap.get(id)).index`; a missing
node or layer makes JS read `.index` of `undefined`. -/
def layerOfE (g : GState) (id : String) : Except Err Nat :=
  match aget g.layerMap id with
  | none => .error (.typeError "index")
  | some lid =>
    match aget g.layers lid with
    | none => .error (.typeError "index")
    | some l => .ok l.index

/-- Total variant of `layerOf` for stating observations. -/
def layerOf? (g : GState) (id : String) : Option Nat :=
  match aget g.layerMap id with
  | none => none
  | some lid => (aget g.layers lid).map (·.index)

/-! ### `layerByIndex` -/

/-- One iteration of the `while (index >= this.layerList.size)` body:
allocate a fresh layer id with `index = current size` and an empty node
set, and append it. -/
def pushLayer (g : GState) : GState :=
  let id := g.nextLayerId
  let l : Layer := { id := id, index := g.layerList.length, nodes := [] }
  { g with layers := aset g.layers id l
           layerList := g.layerList ++ [id]
           nextLayerId := id + 1 }

/-- Immutable.js `List.get` including its negative-index wrap-around. -/
def listGetWrap (l : List Nat) (idx : Int) : Option Nat :=
  let i : Int := if idx < 0 then idx + l.length else idx
  if 0 ≤ i then l.get? i.toNat else none

/-- The final lookup of `layerByIndex`: `this.layers.get(this.layerList.get(index))`. -/
def layerLookup (g' : GState) (idx : Int) : GState × Option Layer :=
  match listGetWrap g'.layerList idx with
  | none => (g', none)
  | some lid => (g', aget g'.layers lid)

/-- `layerByIndex(index)`: append fresh layers until the index exists, then
look it up.  For a negative index no layer is appended and the lookup wraps
(Immutable.js `List.get(-1)` is the last element), possibly yielding
`undefined` (`none`). -/
def layerByIndex (g : GState) (idx : Int) : GState × Option Layer :=
  layerLookup (pushLayer^[(idx + 1 - (g.layerList.length : Int)).toNat] g) idx

/-! ### `_applyChanges` -/

/-- The added-nodes loop: install the node, reset its `predMap`/`succMap`
entries to empty sets, point `layerMap` at the pre-fetched layer-0 id and
accumulate the id into that layer's node set. -/
def addNodesLoop (layerId : Nat) : List Node → GState → SSet → GState × SSet
  | [], g, nodes => (g, nodes)
  | n :: t, g, nodes =>
    let g := { g with nodeMap := aset g.nodeMap n.id n
                      predMap := aset g.predMap n.id []
                      succMap := aset g.succMap n.id []
                      layerMap := aset g.layerMap n.id layerId }
    addNodesLoop layerId t g (sadd nodes n.id)

/-- The removed-nodes loop: look the node's layer up (JS reads `.nodes` of
`undefined` when the node is absent), drop the id from the layer's node
set, push every incident edge onto the removed-edges list, and delete the
node from the four node-keyed maps. -/
def removeNodesLoop : List Node → GState → List Edge → Except Err (GState × List Edge)
  | [], g, extra => .ok (g, extra)
  | n :: t, g, extra =>
    match (aget g.layerMap n.id).bind (aget g.layers) with
    | none => .error (.typeError "nodes")
    | some l =>
      let l' := { l with nodes := sdel l.nodes n.id }
      let extra := extra ++ predEdges g n.id ++ succEdges g n.id
      let g := { g with layers := aset g.layers l'.id l'
                        nodeMap := adel g.nodeMap n.id
                        predMap := adel g.predMap n.id
                        succMap := adel g.succMap n.id
                        layerMap := adel g.layerMap n.id }
      removeNodesLoop t g extra

/-- The added-edges loop: register the edge, then append its id to the
target's pred set and the source's succ set.  When either endpoint has no
`predMap`/`succMap` entry, JS reads `.add` of `undefined`. -/
def addEdgesLoop : List Edge → GState → Except Err GState
  | [], g => .ok g
  | e :: t, g =>
    let i := edgeIdOf e
    let g := { g with edgeMap := aset g.edgeMap i e }
    match aget g.predMap e.targetId with
    | none => .error (.typeError "add")
    | some ps =>
      let g := { g with predMap := aset g.predMap e.targetId (sadd ps i) }
      match aget g.succMap e.sourceId with
      | none => .error (.typeError "add")
      | some ss =>
        addEdgesLoop t { g with succMap := aset g.succMap e.sourceId (sadd ss i) }

/-- The removed-edges loop: delete from `edgeMap`; the pred/succ cleanups
are guarded (`predSet?.has(id)`), so absent entries are tolerated. -/
def removeEdgesLoop : List Edge → GState → GState
  | [], g => g
  | e :: t, g =>
    let i := edgeIdOf e
    let g := { g with edgeMap := adel g.edgeMap i }
    let g := match aget g.predMap e.targetId with
      | some ps =>
        if ps.contains i then { g with predMap := aset g.predMap e.targetId (sdel ps i) } else g
      | none => g
    let g := match aget g.succMap e.sourceId with
      | some ss =>
        if ss.contains i then { g with succMap := aset g.succMap e.sourceId (sdel ss i) } else g
      | none => g
    removeEdgesLoop t g

/-- The added-nodes phase applied to the state returned by
`layerByIndex(0)`: run the add loop, re-store layer 0 with its accumulated
node set, then run the removed-nodes loop. -/
def applyNodePhasesAux (g0 : GState) (layer : Layer) (c : Changes) :
    Except Err (GState × List Edge) :=
  let pr := addNodesLoop layer.id c.addedNodes g0 layer.nodes
  let layer2 := { layer with nodes := pr.2 }
  removeNodesLoop c.removedNodes { pr.1 with layers := aset pr.1.layers layer2.id layer2 }
    c.removedEdges

/-- The first half of `_applyChanges` (added nodes, then removed nodes),
up to and including the point where the removed-edges list has received
the pushed incident edges. -/
def applyNodePhases (g : GState) (c : Changes) : Except Err (GState × List Edge) :=
  match layerByIndex g 0 with
  | (g0, none) => .error (.typeError "nodes")
  | (g0, some layer) => applyNodePhasesAux g0 layer c

/-- `_applyChanges`.  Returns the new state together with the final
removed-edges list: the batch's own entries followed by the edges incident
to removed nodes, which the node-removal loop pushes onto
`this.changes.removedEdges` before that list is iterated. -/
def applyChanges (g : GState) (c : Changes) : Except Err (GState × List Edge) :=
  match applyNodePhases g c with
  | .error e => .error e
  | .ok (g, removedAll) =>
    match addEdgesLoop c.addedEdges g with
    | .error e => .error e
    | .ok g => .ok (removeEdgesLoop removedAll g, removedAll)

/-- `_markDirtyNodes`: added node ids, then targets of added edges, then
targets of removed edges (including the pushed incident edges), keeping
only ids still present in `nodeMap`. -/
def markDirty (g : GState) (c : Changes) (removedAll : List Edge) : SSet :=
  let d := c.addedNodes.foldl (fun d n => if hasNodeG g n.id then sadd d n.id else d) []
  let d := c.addedEdges.foldl (fun d e => if hasNodeG g e.targetId then sadd d e.targetId else d) d
  removedAll.foldl (fun d e => if hasNodeG g e.targetId then sadd d e.targetId else d) d

/-- `cycleInfo(id)`: `this.nodeMap.get(id)?.id || id`. -/
def cycleInfo (g : GState) (id : String) : String :=
  match aget g.nodeMap id with
  | some n => n.id
  | none => id

/-! ### `findRoute` (BFS) and `_checkCyclesIncremental` -/

/-- The parent-chain walk `while (curr != stop) { push curr; curr =
parent.get(curr) }`, returning `[id, parent id, …]` up to (excluding) the
stop id.  Fuel bounds the walk; a missing parent entry or fuel-out stops
it early (on such inputs the JS loop would not terminate). -/
def chainTo (parent : AMap String String) : Nat → String → String → List String → List String
  | 0, _, _, acc => acc
  | fuel+1, stopId, id, acc =>
    if id == stopId then acc
    else
      match aget parent id with
      | none => acc ++ [id]
      | some p => chainTo parent fuel stopId p (acc ++ [id])

/-- The BFS loop of `findRoute`: FIFO queue, visited set, parent map; on
reaching `tgt` the route `[src, …, tgt]` is reconstructed from the parent
chain. -/
def findRouteLoop (g : GState) : Nat → AMap String String → SSet → List String →
    String → String → Option (List String)
  | 0, _, _, _, _, _ => none
  | fuel+1, parent, visited, queue, src, tgt =>
    match queue with
    | [] => none
    | id :: qrest =>
      if id == tgt then
        some (((chainTo parent (asize parent + 1) src tgt []) ++ [src]).reverse)
      else
        let step := (succNodes g id).foldl
          (fun (s : AMap String String × SSet × List String) child =>
            if s.2.1.contains child then s
            else (aset s.1 child id, sadd s.2.1 child, s.2.2 ++ [child]))
          (parent, visited, [])
        findRouteLoop g fuel step.1 step.2.1 (qrest ++ step.2.2) src tgt

/-- `findRoute(from, to)`: BFS along `succNodes`; `none` is JS `null` (no
path).  The fuel exceeds the number of possible enqueues, so fuel-out is
unreachable. -/
def findRoute (g : GState) (src tgt : String) : Option (List String) :=
  findRouteLoop g (asize g.nodeMap + asize g.edgeMap + 2) [] [src] [src] src tgt

/-- `_checkCyclesIncremental`: for each added edge in order, skip it when
`layerOf(source) < layerOf(target)`; otherwise report the reversed BFS
route as the cycle (JS reads `.map` of `null` when no route exists). -/
def checkCyclesIncremental (g : GState) : List Edge → Except Err Unit
  | [] => .ok ()
  | e :: rest =>
    match layerOfE g e.sourceId with
    | .error err => .error err
    | .ok l1 =>
      match layerOfE g e.targetId with
      | .error err => .error err
      | .ok l2 =>
        if l1 < l2 then checkCyclesIncremental g rest
        else
          match findRoute g e.sourceId e.targetId with
          | none => .error (.typeError "map")
          | some route => .error (.cycleDetected ((route.map (cycleInfo g)).reverse))

/-! ### `_checkCyclesFull` (three-colour DFS) -/

/-- DFS state: colour map (absent = white 0, gray 1, black 2), tree-edge
parent map, and the detected back edge as `(start, end)`. -/
structure DfsSt where
  color : AMap String Nat
  parent : AMap String String
  found : Option (String × String)
deriving DecidableEq, Repr

def colorOf (st : DfsSt) (id : String) : Nat :=
  (aget st.color id).getD 0

/-- `visit(id)`: gray the node, run the `for (const next of
this.succNodes(id))` loop, then blacken it and return `false`.  The loop is
a fold whose `Bool` component records the early `return true`: once a gray
successor is hit (the back edge is stored in `found`) or a recursive visit
reports a cycle, the remaining successors are skipped, exactly like the JS
early return.  A gray successor records `(start, end) = (next, id)`; a
white successor gets a parent pointer and is visited recursively; a black
one is skipped.  Fuel-out returns `false` without touching the state
(unreachable with the fuel used by `checkCyclesFull`). -/
def dfsVisit (g : GState) : Nat → DfsSt → String → DfsSt × Bool
  | 0, st, _ => (st, false)
  | fuel+1, st, id =>
    let st0 : DfsSt := { st with color := aset st.color id 1 }
    let r := (succNodes g id).foldl
      (fun (acc : DfsSt × Bool) next =>
        if acc.2 then acc
        else
          match colorOf acc.1 next with
          | 1 => ({ acc.1 with found := some (next, id) }, true)
          | 0 => dfsVisit g fuel { acc.1 with parent := aset acc.1.parent next id } next
          | _ => acc)
      (st0, false)
    if r.2 then r else ({ r.1 with color := aset r.1.color id 2 }, false)

/-- The outer loop of `_checkCyclesFull`: visit every still-white key of
`nodeMap`, stopping at the first detected cycle. -/
def dfsAll (g : GState) (fuel : Nat) : List String → DfsSt → DfsSt
  | [], st => st
  | id :: rest, st =>
    if colorOf st id == 0 then
      match dfsVisit g fuel st id with
      | (st, true) => st
      | (st, false) => dfsAll g fuel rest st
    else dfsAll g fuel rest st

def dfsFuel (g : GState) : Nat :=
  asize g.nodeMap + asize g.edgeMap + 2

/-- `_checkCyclesFull`.  The `if (!start) return` test is JS truthiness,
so a detected back edge whose `start` is the empty-string id is (unsoundly)
ignored, exactly as in the source. -/
def checkCyclesFull (g : GState) : Except Err Unit :=
  let st := dfsAll g (dfsFuel g) (akeys g.nodeMap) ⟨[], [], none⟩
  match st.found with
  | none => .ok ()
  | some (startId, endId) =>
    if startId == "" then .ok ()
    else
      let cycle := (([startId] ++ chainTo st.parent (asize st.parent + 1) startId endId []) ++
        [startId]).reverse
      .error (.cycleDetected (cycle.map (cycleInfo g)))

/-- `_checkCycles`: the hybrid dispatch.  `newStuff / totalNodes > 0.2` is
modelled exactly as `5 * newStuff > totalNodes` (`NaN > 0.2` is false for
the `0/0` case, matching `0 > 0`). -/
def checkCycles (g : GState) (c : Changes) : Except Err Unit :=
  let totalNodes := asize g.nodeMap
  let newStuff := c.addedNodes.length + c.addedEdges.length
  if 5 * newStuff > totalNodes ∨ totalNodes < 20 then checkCyclesFull g
  else checkCyclesIncremental g c.addedEdges

/-! ### `_moveNodeLayer` and `_updateLayers` -/

/-- The index-renumbering loop after a layer deletion: walk the remaining
suffix of `layerList` and overwrite each layer's `index` with its
position. -/
def renumberList : List Nat → Nat → AMap Nat Layer → AMap Nat Layer
  | [], _, layers => layers
  | lid :: rest, i, layers =>
    let layers := match aget layers lid with
      | some l => aset layers lid { l with index := i }
      | none => layers
    renumberList rest (i + 1) layers

/-- `_moveNodeLayer(id, newIndex)`: move the node into the layer at
`newIndex` (creating layers as needed) and, when the source layer becomes
empty, delete it from `layers` and `layerList` and renumber the suffix. -/
def moveNodeLayer (g : GState) (id : String) (newIndex : Int) : Except Err GState :=
  let oldLayerOpt := (aget g.layerMap id).bind (aget g.layers)
  match layerByIndex g newIndex with
  | (g, newLayerOpt) =>
    match oldLayerOpt, newLayerOpt with
    | some oldLayer0, some newLayer0 =>
      let oldLayer := { oldLayer0 with nodes := sdel oldLayer0.nodes id }
      let newLayer := { newLayer0 with nodes := sadd newLayer0.nodes id }
      let g := { g with layers := aset g.layers newLayer.id newLayer
                        layerMap := aset g.layerMap id newLayer.id }
      if oldLayer.nodes.length = 0 then
        let g := { g with layers := adel g.layers oldLayer.id
                          layerList := g.layerList.eraseIdx oldLayer.index }
        .ok { g with layers := renumberList (g.layerList.drop oldLayer.index) oldLayer.index g.layers }
      else
        .ok { g with layers := aset g.layers oldLayer.id oldLayer }
    | _, _ => .error (.typeError "nodes")

def listMaxN : List Nat → Nat
  | [] => 0
  | h :: t => t.foldl max h

def listMinN : List Nat → Nat
  | [] => 0
  | h :: t => t.foldl min h

/-- Phase 1 of `_updateLayers`: LIFO worklist (`stack.pop()` takes the last
element).  Each popped node is moved to `0` (no parents) or `max parent
layer + 1`; on a move its successors are pushed and its parents added to
the phase-2 set. -/
def phase1 : Nat → GState → List String → SSet → Except Err (GState × SSet)
  | 0, _, _, _ => .error (.typeError "fuel")
  | fuel+1, g, stack, ph2 =>
    match stack.getLast? with
    | none => .ok (g, ph2)
    | some id =>
      let stack := stack.dropLast
      let parents := predNodes g id
      match parents.mapM (layerOfE g) with
      | .error e => .error e
      | .ok plist =>
        let correct : Nat := if parents.isEmpty then 0 else listMaxN plist + 1
        match layerOfE g id with
        | .error e => .error e
        | .ok cur =>
          if cur = correct then phase1 fuel g stack ph2
          else
            match moveNodeLayer g id (correct : Int) with
            | .error e => .error e
            | .ok g' => phase1 fuel g' (stack ++ succNodes g' id) (parents.foldl sadd ph2)

/-- `addParent(id)` of phase 2: bucket the id under its current layer id.
(When the id has no layer the JS code would key the bucket by `undefined`;
that branch leaves the buckets unchanged here and is unreachable on the
runs evaluated in this file.) -/
def addParent (g : GState) (byLayer : AMap Nat SSet) (id : String) : AMap Nat SSet :=
  match aget g.layerMap id with
  | none => byLayer
  | some lid =>
    match aget byLayer lid with
    | none => aset byLayer lid [id]
    | some s => aset byLayer lid (sadd s id)

def indexOfLayer (g : GState) (lid : Nat) : Nat :=
  ((aget g.layers lid).map (·.index)).getD 0

/-- Stable insertion into a list sorted by decreasing layer index, matching
the stable JS `sort((a, b) => layers.get(b).index - layers.get(a).index)`. -/
def insertDesc (g : GState) (lid : Nat) : List Nat → List Nat
  | [] => [lid]
  | h :: t => if indexOfLayer g h < indexOfLayer g lid then lid :: h :: t else h :: insertDesc g lid t

def sortLayerIdsDesc (g : GState) (lids : List Nat) : List Nat :=
  lids.foldr (insertDesc g) []

/-- One bucket of phase 2, iterated by position so that ids appended to the
bucket during iteration are still visited (JS live `Set` iteration).
`curLayer` is the bucket layer's index as fetched once at bucket start. -/
def phase2Bucket : Nat → GState → AMap Nat SSet → Nat → Nat → Nat →
    Except Err (GState × AMap Nat SSet)
  | 0, _, _, _, _, _ => .error (.typeError "fuel")
  | fuel+1, g, byLayer, lid, curLayer, pos =>
    match ((aget byLayer lid).getD []).get? pos with
    | none => .ok (g, byLayer)
    | some id =>
      let children := succNodes g id
      if children.isEmpty then phase2Bucket fuel g byLayer lid curLayer (pos+1)
      else
        match children.mapM (layerOfE g) with
        | .error e => .error e
        | .ok clist =>
          let correct : Int := (listMinN clist : Int) - 1
          if (curLayer : Int) = correct then phase2Bucket fuel g byLayer lid curLayer (pos+1)
          else
            match moveNodeLayer g id correct with
            | .error e => .error e
            | .ok g' =>
              phase2Bucket fuel g' ((predNodes g' id).foldl (addParent g') byLayer) lid curLayer (pos+1)

/-- The outer bucket loop of phase 2, over the layer-id list sorted once at
phase start. -/
def phase2Go : Nat → GState → AMap Nat SSet → List Nat → Except Err GState
  | 0, _, _, _ => .error (.typeError "fuel")
  | fuel+1, g, byLayer, lids =>
    match lids with
    | [] => .ok g
    | lid :: rest =>
      match aget g.layers lid with
      | none => .error (.typeError "index")
      | some l =>
        match phase2Bucket fuel g byLayer lid l.index 0 with
        | .error e => .error e
        | .ok (g', byLayer') => phase2Go fuel g' byLayer' rest

def updateFuel (g : GState) : Nat :=
  (asize g.nodeMap + asize g.edgeMap + g.layerList.length + 4) ^ 3

/-- `_updateLayers`: phase 1 from the dirty set, then phase 2 over the
phase-2 ids grouped by current layer and processed in decreasing layer
order. -/
def updateLayers (g : GState) (dirty : SSet) : Except Err GState :=
  match phase1 (updateFuel g) g dirty dirty with
  | .error e => .error e
  | .ok (g1, ph2) =>
    let byLayer := ph2.foldl (addParent g1) []
    let lids := sortLayerIdsDesc g1 (akeys byLayer)
    phase2Go (updateFuel g1) g1 byLayer lids

/-! ### `update` and the public facade -/

/-- `update()` on a dirty graph: `_applyChanges`, `_markDirtyNodes`,
`_checkCycles`, `_updateLayers`, with every raised error propagating to the
caller. -/
def runUpdate (g : GState) (c : Changes) : Except Err GState :=
  match applyChanges g c with
  | .error e => .error e
  | .ok (g1, removedAll) =>
    let dirty := markDirty g1 c removedAll
    match checkCycles g1 c with
    | .error e => .error e
    | .ok _ => updateLayers g1 dirty

/-- A graph version: its index state plus the `prior` back reference. -/
inductive Graph where
  | mk (st : GState) (prior : Option Graph)

def Graph.st : Graph → GState
  | .mk st _ => st

def Graph.prior : Graph → Option Graph
  | .mk _ p => p

def Changes.isEmptyChanges (c : Changes) : Bool :=
  c.addedNodes.isEmpty && c.removedNodes.isEmpty && c.addedEdges.isEmpty && c.removedEdges.isEmpty

/-- `new Graph()`. -/
def Graph.empty : Graph := .mk emptyGState none

/-- `withMutations(fn)`: construct a new version carrying `prior = this`
and the accumulated change log and commit it; an empty change log skips
`update()` entirely. -/
def Graph.withMutationsC (g : Graph) (c : Changes) : Except Err Graph :=
  if c.isEmptyChanges then .ok (.mk g.st (some g))
  else (runUpdate g.st c).map (fun st => .mk st (some g))

def Graph.addNodeG (g : Graph) (n : Node) : Except Err Graph :=
  g.withMutationsC { addedNodes := [n] }

def Graph.addNodesG (g : Graph) (ns : List Node) : Except Err Graph :=
  g.withMutationsC { addedNodes := ns }

def Graph.addEdgeG (g : Graph) (e : Edge) : Except Err Graph :=
  g.withMutationsC { addedEdges := [e] }

def Graph.addEdgesG (g : Graph) (es : List Edge) : Except Err Graph :=
  g.withMutationsC { addedEdges := es }

def Graph.removeNodeG (g : Graph) (n : Node) : Except Err Graph :=
  g.withMutationsC { removedNodes := [n] }

/-- `removeNode(s)` with a string argument normalises to `{ id: s }`. -/
def Graph.removeNodeById (g : Graph) (s : String) : Except Err Graph :=
  g.withMutationsC { removedNodes := [{ id := s }] }

def Graph.removeNodesG (g : Graph) (ns : List Node) : Except Err Graph :=
  g.withMutationsC { removedNodes := ns }

def Graph.removeEdgeG (g : Graph) (e : Edge) : Except Err Graph :=
  g.withMutationsC { removedEdges := [e] }

def Graph.removeEdgesG (g : Graph) (es : List Edge) : Except Err Graph :=
  g.withMutationsC { removedEdges := es }

/-- `new Graph({ nodes, edges })`: an empty prior state with the seed lists
as the first batch (no `prior` reference). -/
def Graph.ofLists (nodes : List Node) (edges : List Edge) : Except Err Graph :=
  if nodes.isEmpty && edges.isEmpty then .ok (.mk emptyGState none)
  else (runUpdate emptyGState { addedNodes := nodes, addedEdges := edges }).map (.mk · none)

/-! ### Named form of the DFS scan step (definitionally the fold body) -/

/-- The body of the successor loop of `visit`, as a named function (it is
definitionally the lambda folded by `dfsVisit`). -/
def dfsStep (g : GState) (fuel : Nat) (id : String) : DfsSt × Bool → String → DfsSt × Bool :=
  fun acc next =>
    if acc.2 then acc
    else
      match colorOf acc.1 next with
      | 1 => ({ acc.1 with found := some (next, id) }, true)
      | 0 => dfsVisit g fuel { acc.1 with parent := aset acc.1.parent next id } next
      | _ => acc

/-- Every node the DFS can ever touch: the scanned `nodeMap` keys together
with the targets of all stored edges. -/
def UList (g : GState) : List String :=
  (akeys g.nodeMap ++ g.edgeMap.map (fun p => p.2.targetId)).dedup

/-- The number of still-white touchable nodes: the DFS recursion measure. -/
def whiteCountG (g : GState) (st : DfsSt) : Nat :=
  (UList g).countP (fun x => colorOf st x == 0)

/-- The blackening-order invariant: black nodes only point at black nodes
of strictly smaller rank.  All nodes black plus this property excludes a
directed cycle. -/
def DfsJ (g : GState) (r : String → Nat) (st : DfsSt) : Prop :=
  ∀ x, colorOf st x = 2 → ∀ y ∈ succNodes g x, colorOf st y = 2 ∧ r y < r x

/-- The layering condition of the incremental checker for one added edge:
`layerOf(source) < layerOf(target)` evaluated on the mid-commit state. -/
def Ascends (g : GState) (e : Edge) : Prop :=
  ∃ l1 l2, layerOfE g e.sourceId = .ok l1 ∧ layerOfE g e.targetId = .ok l2 ∧ l1 < l2

/-- `u → v` is an adjacency step of the graph (an edge along `succNodes`). -/
def SuccRel (g : GState) (u v : String) : Prop :=
  v ∈ succNodes g u

/-- The graph contains a directed cycle: some node reaches itself in at
least one `succNodes` step. -/
def HasCycle (g : GState) : Prop :=
  ∃ u, Relation.TransGen (SuccRel g) u u

/-- The specification of one `visit(id)` call: colours of non-white nodes
are frozen; colours stay in range; a `false` return blackens `id`, leaves
the gray set and `found` unchanged and preserves the blackening-order
invariant; a `true` return witnesses a directed cycle and a recorded back
edge whose `start` was gray at entry or lies in the touchable universe. -/
def VisitSpec (g : GState) (st : DfsSt) (id : String) (st' : DfsSt) (b : Bool) : Prop :=
  (∀ x, colorOf st x ≠ 0 → colorOf st' x = colorOf st x) ∧
  (∀ x, colorOf st' x ≤ 2) ∧
  (b = false →
    colorOf st' id = 2 ∧ (∀ x, colorOf st' x = 1 ↔ colorOf st x = 1) ∧
    st'.found = st.found ∧ (∃ r', DfsJ g r' st')) ∧
  (b = true → HasCycle g ∧
    ∃ s e, st'.found = some (s, e) ∧ (colorOf st s = 1 ∨ s ∈ UList g))

/-- Invariant of the successor scan while no cycle has been flagged,
relative to the state `st0` at the start of the scan. -/
def ScanInvF (g : GState) (st0 stA : DfsSt) : Prop :=
  (∀ x, colorOf stA x = 1 ↔ colorOf st0 x = 1) ∧
  (∀ x, colorOf st0 x ≠ 0 → colorOf stA x = colorOf st0 x) ∧
  stA.found = st0.found ∧ (∃ r', DfsJ g r' stA) ∧
  whiteCountG g stA ≤ whiteCountG g st0

/-- Invariant of the successor scan once a cycle has been flagged,
relative to the state `st` at entry of the enclosing `visit`. -/
def ScanInvT (g : GState) (st stA : DfsSt) : Prop :=
  HasCycle g ∧ ∃ s e, stA.found = some (s, e) ∧ (colorOf st s = 1 ∨ s ∈ UList g)

/-! ### Specification-side properties -/

/-- The layering condition for one edge:
`layers[layerMap[u]].index < layers[layerMap[v]].index`. -/
def EdgeAscends (g : GState) (ed : Edge) : Prop :=
  ∃ lu lv, layerOf? g ed.sourceId = some lu ∧ layerOf? g ed.targetId = some lv ∧ lu < lv

/-- Invariant P1 (layer monotonicity): every stored edge ascends. -/
def LayerMono (g : GState) : Prop :=
  ∀ i ed, aget g.edgeMap i = some ed → EdgeAscends g ed

/-- Invariant 5 of the spec for `predMap`: `predMap[v]` contains exactly
the edge ids whose `targetId = v`. -/
def PredExact (g : GState) : Prop :=
  ∀ id s, aget g.predMap id = some s →
    ∀ e, e ∈ s ↔ ∃ ed, aget g.edgeMap e = some ed ∧ ed.targetId = id

/-- Invariant P2, second half: no layer in `layerList` is empty. -/
def NoEmptyLayer (g : GState) : Prop :=
  ∀ lid ∈ g.layerList, ∃ l, aget g.layers lid = some l ∧ l.nodes ≠ []

/-! ### A rank argument for acyclicity of concrete graphs -/

def rankOf (m : AMap String Nat) (u : String) : Nat :=
  (aget m u).getD 0

/-- Decidable check that a rank map strictly increases along every
adjacency step recorded in `succMap`/`edgeMap`. -/
def rankedB (g : GState) (m : AMap String Nat) : Bool :=
  g.succMap.all (fun p =>
    p.2.all (fun e =>
      g.edgeMap.all (fun q =>
        q.1 != e || decide (rankOf m p.1 < rankOf m q.2.targetId))))

/-! ### Concrete states used by the counterexamples and evaluations -/

def mkNode (s : String) : Node := { id := s }

def mkEdge (a b : String) : Edge := { sourceId := a, targetId := b }

def thenUpdate (r : Except Err GState) (c : Changes) : Except Err GState :=
  match r with
  | .ok g => runUpdate g c
  | .error e => .error e

def okState (r : Except Err GState) : GState :=
  match r with
  | .ok g => g
  | .error _ => emptyGState

/-- A graph of 20 isolated nodes (above the `totalNodes < 20` threshold,
so a subsequent one-edge batch takes the incremental path). -/
def isoNodes : List Node :=
  ["a0", "a1", "a2", "a3", "a4", "a5", "a6", "a7", "a8", "a9",
   "b0", "b1", "b2", "b3", "b4", "b5", "b6", "b7", "b8", "b9"].map mkNode

def isoPre : Except Err GState := runUpdate emptyGState { addedNodes := isoNodes }

def flatBatch : Changes := { addedEdges := [mkEdge "a1" "a2"] }

/-- The state after applying `flatBatch`'s structural changes to the
20-node graph (the graph the cycle check runs on). -/
def flatApplied : GState :=
  match applyChanges (okState isoPre) flatBatch with
  | .ok (g1, _) => g1
  | .error _ => emptyGState

/-- Committing the flat edge `a1 → a2` between two layer-0 nodes. -/
def flatPost : Except Err GState := thenUpdate isoPre flatBatch

/-- The duplicate re-add scenario: `n1 → n2`, then a batch re-adding the
existing id `n2`. -/
def dupPre : Except Err GState :=
  runUpdate emptyGState { addedNodes := [mkNode "n1", mkNode "n2"], addedEdges := [mkEdge "n1" "n2"] }

def dupPost : Except Err GState := thenUpdate dupPre { addedNodes := [mkNode "n2"] }

def dupBad : GState := okState dupPost

/-- Removing the only node of a one-node graph. -/
def solePre : Except Err GState := runUpdate emptyGState { addedNodes := [mkNode "n1"] }

def solePost : Except Err GState := thenUpdate solePre { removedNodes := [mkNode "n1"] }

def soleBad : GState := okState solePost

/-- The `should push parents down` graph of the test suite:
`n1 → n2 → n3` and `n4 → n3`. -/
def pushPost : Except Err GState :=
  runUpdate emptyGState
    { addedNodes := [mkNode "n1", mkNode "n2", mkNode "n3", mkNode "n4"],
      addedEdges := [mkEdge "n1" "n2", mkEdge "n2" "n3", mkEdge "n4" "n3"] }

def pushBad : GState := okState pushPost

/-- The state a commit on the empty graph leaves behind when it only had
absent edges to remove: an empty layer 0 has been created. -/
def emptyWithLayer0 : GState :=
  { emptyGState with layers := [(0, { id := 0, index := 0, nodes := [] })],
                     layerList := [0], nextLayerId := 1 }

/-- A committed chain `n1 → n2 → n3`. -/
def cyc3Pre : Except Err GState :=
  runUpdate emptyGState { addedNodes := [mkNode "n1", mkNode "n2", mkNode "n3"],
                          addedEdges := [mkEdge "n1" "n2", mkEdge "n2" "n3"] }

/-- The batch closing the chain into a 3-cycle. -/
def cyc3Batch : Changes := { addedEdges := [mkEdge "n3" "n1"] }

/-- The applied (pre-check) state of that batch. -/
def cyc3App : GState × List Edge :=
  match applyChanges (okState cyc3Pre) cyc3Batch with
  | .ok p => p
  | .error _ => (emptyGState, [])

/-- The domains of `predMap` and `succMap` agree with `nodeMap` (they are
installed and deleted in lockstep by `_applyChanges`). -/
def DomAgree (g : GState) : Prop :=
  ∀ id, ahas g.predMap id = hasNodeG g id ∧ ahas g.succMap id = hasNodeG g id

/-- The possible outcomes of a public mutation entry point: an error, or a
new graph version whose `prior` is the original graph value. -/
def ReturnsNewVersion (g : Graph) (r : Except Err Graph) : Prop :=
  (∃ err, r = .error err) ∨ (∃ g2, r = .ok g2 ∧ g2.prior = some g)

/-- Layer-table well-formedness: `layerList` has no duplicate ids, ids stay
below the id counter, the record stored under the id at each list position
carries that id and has `index` equal to the position, and every stored
layer id occurs in the list. -/
def LayerWF (g : GState) : Prop :=
  g.layerList.Nodup ∧
  (∀ lid ∈ g.layerList, lid < g.nextLayerId) ∧
  (∀ i lid, g.layerList.get? i = some lid →
    ∃ l, aget g.layers lid = some l ∧ l.id = lid ∧ l.index = i) ∧
  (∀ lid l, aget g.layers lid = some l → lid ∈ g.layerList)

/-- The node sits, per `layerMap`, in a stored layer of index 0 whose node
set contains it. -/
def AtZero (g : GState) (id : String) : Prop :=
  ∃ lid l, aget g.layerMap id = some lid ∧ aget g.layers lid = some l ∧
    l.index = 0 ∧ id ∈ l.nodes

/-- The layer updater only rearranges layers: the four node/edge-structure
maps are untouched. -/
def SameCore (a b : GState) : Prop :=
  a.nodeMap = b.nodeMap ∧ a.edgeMap = b.edgeMap ∧
  a.predMap = b.predMap ∧ a.succMap = b.succMap

/-! ### Basic association-map and rank lemmas -/

theorem aget_nil [BEq κ] (k : κ) : aget ([] : AMap κ α) k = none := rfl

theorem aget_cons [BEq κ] (k' : κ) (v : α) (t : AMap κ α) (k : κ) :
    aget ((k', v) :: t) k = if k' == k then some v else aget t k := by
  simp only [aget, List.find?]
  cases h : k' == k <;> simp [h]

theorem aget_mem [BEq κ] [LawfulBEq κ] {m : AMap κ α} {k : κ} {v : α}
    (h : aget m k = some v) : (k, v) ∈ m := by
  unfold aget at h
  obtain ⟨p, hfind, hv⟩ := Option.map_eq_some'.mp h
  have hmem := List.mem_of_find?_eq_some hfind
  have hbeq : (p.1 == k) = true := by simpa using List.find?_some hfind
  have h1 : p.1 = k := eq_of_beq hbeq
  have : p = (k, v) := Prod.ext h1 hv
  exact this ▸ hmem

theorem aget_aset_self [BEq κ] [LawfulBEq κ] (m : AMap κ α) (k : κ) (v : α) :
    aget (aset m k v) k = some v := by
  induction m with
  | nil => simp [aset, aget_cons]
  | cons p t ih =>
    obtain ⟨k', v'⟩ := p
    by_cases h : k' = k
    · subst h; simp [aset, aget_cons]
    · simp only [aset]
      rw [if_neg (by simpa using h)]
      rw [aget_cons]
      rw [if_neg (by simpa using h)]
      exact ih

theorem aget_aset_ne [BEq κ] [LawfulBEq κ] {m : AMap κ α} {k k' : κ} {v : α}
    (h : k' ≠ k) : aget (aset m k v) k' = aget m k' := by
  have hkk' : (k == k') = false := by simp [Ne.symm h]
  induction m with
  | nil => simp [aset, aget_cons, aget_nil, hkk']
  | cons p t ih =>
    obtain ⟨k0, v0⟩ := p
    simp only [aset]
    by_cases h0 : k0 = k
    · subst h0
      simp [aget_cons, hkk']
    · have h0' : (k0 == k) = false := by simp [h0]
      simp only [h0', if_false, Bool.false_eq_true]
      rw [aget_cons, aget_cons]
      by_cases hbe : k0 = k'
      · subst hbe; simp
      · have hb : (k0 == k') = false := by simp [hbe]
        simp [hb, ih]

theorem aget_adel_self [BEq κ] [LawfulBEq κ] (m : AMap κ α) (k : κ) :
    aget (adel m k) k = none := by
  induction m with
  | nil => rfl
  | cons p t ih =>
    obtain ⟨k0, v0⟩ := p
    simp only [adel, List.filter_cons] at *
    by_cases h0 : k0 = k
    · subst h0; simpa using ih
    · have h1 : ((k0, v0).1 != k) = true := by simp [h0]
      rw [h1]
      simp only [if_true]
      rw [aget_cons]
      have h2 : (k0 == k) = false := by simp [h0]
      simpa [h2] using ih

theorem aget_adel_ne [BEq κ] [LawfulBEq κ] {m : AMap κ α} {k k' : κ}
    (h : k' ≠ k) : aget (adel m k) k' = aget m k' := by
  induction m with
  | nil => rfl
  | cons p t ih =>
    obtain ⟨k0, v0⟩ := p
    simp only [adel, List.filter_cons] at *
    by_cases h0 : k0 = k
    · subst h0
      have h1 : ((k0, v0).1 != k0) = false := by simp
      rw [h1]
      simp only [Bool.false_eq_true, if_false]
      rw [aget_cons]
      have h2 : (k0 == k') = false := by simp [Ne.symm h]
      simpa [h2] using ih
    · have h1 : ((k0, v0).1 != k) = true := by simp [h0]
      rw [h1]
      simp only [if_true]
      rw [aget_cons, aget_cons]
      by_cases hbe : k0 = k'
      · subst hbe; simp
      · have hb : (k0 == k') = false := by simp [hbe]
        simp [hb, ih]

theorem succRel_rank {g : GState} {m : AMap String Nat} (hr : rankedB g m = true)
    {u v : String} (h : SuccRel g u v) : rankOf m u < rankOf m v := by
  unfold SuccRel succNodes succIds at h
  cases hs : aget g.succMap u with
  | none => rw [hs] at h; simp at h
  | some s =>
    rw [hs] at h
    simp only [Option.getD_some] at h
    obtain ⟨e, he, hfe⟩ := List.mem_filterMap.mp h
    obtain ⟨ed, hed, htgt⟩ := Option.map_eq_some'.mp hfe
    have hsmem : (u, s) ∈ g.succMap := aget_mem hs
    have hemem : (e, ed) ∈ g.edgeMap := aget_mem hed
    have h1 := (List.all_eq_true.mp hr) _ hsmem
    have h2 := (List.all_eq_true.mp h1) _ he
    have h3 := (List.all_eq_true.mp h2) _ hemem
    simp at h3
    exact htgt ▸ h3

/-- If some rank map strictly increases along every adjacency step, the
graph has no directed cycle. -/
theorem noCycle_of_rankedB {g : GState} {m : AMap String Nat}
    (hr : rankedB g m = true) : ¬ HasCycle g := by
  rintro ⟨u, hcyc⟩
  have mono : ∀ a b, Relation.TransGen (SuccRel g) a b → rankOf m a < rankOf m b := by
    intro a b h
    induction h with
    | single h => exact succRel_rank hr h
    | tail _ h ih => exact ih.trans (succRel_rank hr h)
  exact absurd (mono u u hcyc) (lt_irrefl _)

/-! ### DFS correctness: basic lemmas -/

theorem dfsVisit_zero (g : GState) (st : DfsSt) (id : String) :
    dfsVisit g 0 st id = (st, false) := rfl

theorem dfsVisit_succ (g : GState) (fuel : Nat) (st : DfsSt) (id : String) :
    dfsVisit g (fuel + 1) st id =
      (let st0 : DfsSt := { st with color := aset st.color id 1 }
       let r := (succNodes g id).foldl (dfsStep g fuel id) (st0, false)
       if r.2 then r else ({ r.1 with color := aset r.1.color id 2 }, false)) := rfl

theorem colorOf_setColor (st : DfsSt) (id : String) (c : Nat) (x : String) :
    colorOf { st with color := aset st.color id c } x = if x = id then c else colorOf st x := by
  unfold colorOf
  by_cases h : x = id
  · subst h; rw [if_pos rfl]; simp [aget_aset_self]
  · rw [if_neg h]
    show (aget (aset st.color id c) x).getD 0 = (aget st.color x).getD 0
    rw [aget_aset_ne h]

theorem countP_le_of_imp {α : Type} (p q : α → Bool) :
    ∀ l : List α, (∀ x ∈ l, p x = true → q x = true) → l.countP p ≤ l.countP q := by
  intro l
  induction l with
  | nil => intro _; simp
  | cons a t ih =>
    intro h
    rw [List.countP_cons, List.countP_cons]
    have ht := ih (fun x hx => h x (List.mem_cons_of_mem _ hx))
    by_cases hp : p a = true
    · rw [if_pos hp, if_pos (h a (List.mem_cons_self _ _) hp)]
      omega
    · rw [if_neg hp]
      by_cases hq : q a = true
      · rw [if_pos hq]; omega
      · rw [if_neg hq]; omega

theorem countP_lt_of_mem {α : Type} (p q : α → Bool) :
    ∀ l : List α, (∀ x ∈ l, p x = true → q x = true) →
      ∀ u ∈ l, q u = true → p u = false → l.countP p < l.countP q := by
  intro l
  induction l with
  | nil => intro _ u hu; cases hu
  | cons a t ih =>
    intro h u hu hq hp
    rw [List.countP_cons, List.countP_cons]
    have himp : ∀ x ∈ t, p x = true → q x = true :=
      fun x hx => h x (List.mem_cons_of_mem _ hx)
    rcases List.mem_cons.mp hu with rfl | hut
    · have ht := countP_le_of_imp p q t himp
      rw [if_pos hq, if_neg (by rw [hp]; exact Bool.false_ne_true)]
      omega
    · have ht := ih himp u hut hq hp
      by_cases hpa : p a = true
      · rw [if_pos hpa, if_pos (h a (List.mem_cons_self _ _) hpa)]
        omega
      · rw [if_neg hpa]
        have : (0 : Nat) ≤ if q a = true then 1 else 0 := by omega
        omega

theorem mem_UList_of_key {g : GState} {x : String} (h : x ∈ akeys g.nodeMap) : x ∈ UList g := by
  unfold UList
  rw [List.mem_dedup]
  exact List.mem_append_left _ h

theorem mem_UList_of_succ {g : GState} {u v : String} (h : v ∈ succNodes g u) : v ∈ UList g := by
  unfold succNodes succIds at h
  cases hs : aget g.succMap u with
  | none => rw [hs] at h; simp at h
  | some s =>
    rw [hs] at h
    simp only [Option.getD_some] at h
    obtain ⟨e, _, hfe⟩ := List.mem_filterMap.mp h
    obtain ⟨ed, hed, htgt⟩ := Option.map_eq_some'.mp hfe
    have hedmem : (e, ed) ∈ g.edgeMap := aget_mem hed
    have hmap : ed.targetId ∈ g.edgeMap.map (fun p => p.2.targetId) :=
      List.mem_map.mpr ⟨(e, ed), hedmem, rfl⟩
    unfold UList
    rw [List.mem_dedup]
    exact List.mem_append_right _ (htgt ▸ hmap)

theorem le_foldl_max : ∀ (l : List Nat) (a : Nat),
    a ≤ l.foldl max a ∧ ∀ y ∈ l, y ≤ l.foldl max a := by
  intro l
  induction l with
  | nil => intro a; exact ⟨le_refl _, fun y hy => absurd hy (List.not_mem_nil _)⟩
  | cons h t ih =>
    intro a
    rw [List.foldl_cons]
    obtain ⟨h1, h2⟩ := ih (max a h)
    refine ⟨le_trans (le_max_left a h) h1, fun y hy => ?_⟩
    rcases List.mem_cons.mp hy with rfl | hyt
    · exact le_trans (le_max_right a y) h1
    · exact h2 y hyt

/-- The invariant of the successor-scan fold of `visit`: freezing of
non-white colours, colour range, preservation of `ScanInvF` (plus all
scanned successors black) while no cycle is flagged, and `ScanInvT` once
one is. -/
theorem dfsScan_spec (g : GState) (fuel : Nat) (st st0 : DfsSt) (id : String)
    (ihv : ∀ (stB : DfsSt) (idB : String) (r : String → Nat) (stC : DfsSt) (bC : Bool),
      dfsVisit g fuel stB idB = (stC, bC) → colorOf stB idB = 0 → idB ∈ UList g →
      whiteCountG g stB < fuel → (∀ x, colorOf stB x ≤ 2) → DfsJ g r stB →
      (∀ x, colorOf stB x = 1 → Relation.ReflTransGen (SuccRel g) x idB) →
      VisitSpec g stB idB stC bC)
    (hUid : id ∈ UList g)
    (hPath : ∀ x, colorOf st x = 1 → Relation.ReflTransGen (SuccRel g) x id)
    (cSt0 : ∀ x, colorOf st0 x = if x = id then 1 else colorOf st x)
    (hfuel0 : whiteCountG g st0 < fuel) :
    ∀ l : List String, (∀ y ∈ l, SuccRel g id y) →
    ∀ acc : DfsSt × Bool, (∀ x, colorOf acc.1 x ≤ 2) →
      (acc.2 = false → ScanInvF g st0 acc.1) →
      (acc.2 = true → ScanInvT g st acc.1) →
      (∀ x, colorOf acc.1 x ≠ 0 →
        colorOf (l.foldl (dfsStep g fuel id) acc).1 x = colorOf acc.1 x) ∧
      (∀ x, colorOf (l.foldl (dfsStep g fuel id) acc).1 x ≤ 2) ∧
      ((l.foldl (dfsStep g fuel id) acc).2 = false → acc.2 = false ∧
        ScanInvF g st0 (l.foldl (dfsStep g fuel id) acc).1 ∧
        ∀ y ∈ l, colorOf (l.foldl (dfsStep g fuel id) acc).1 y = 2) ∧
      ((l.foldl (dfsStep g fuel id) acc).2 = true →
        ScanInvT g st (l.foldl (dfsStep g fuel id) acc).1) := by
  intro l
  induction l with
  | nil =>
    intro _ acc hrangeA hF hT
    rw [List.foldl_nil]
    exact ⟨fun x _ => rfl, hrangeA,
      fun hres => ⟨hres, hF hres, fun y hy => absurd hy (List.not_mem_nil _)⟩, hT⟩
  | cons next rest ihl =>
    intro hsteps acc hrangeA hF hT
    have htail : ∀ y ∈ rest, SuccRel g id y := fun y hy => hsteps y (List.mem_cons_of_mem _ hy)
    have hhead : SuccRel g id next := hsteps next (List.mem_cons_self _ _)
    rw [List.foldl_cons]
    cases hflag : acc.2 with
    | true =>
      have hstep : dfsStep g fuel id acc next = acc := by
        simp [dfsStep, hflag]
      rw [hstep]
      obtain ⟨hfz, hrg, hFc, hTc⟩ := ihl htail acc hrangeA hF hT
      refine ⟨hfz, hrg, fun hres => ?_, hTc⟩
      obtain ⟨haccf, _⟩ := hFc hres
      exact absurd (hflag.symm.trans haccf) (by decide)
    | false =>
      obtain ⟨hiff, hfrz0, hfnd, hJex, hwcA⟩ := hF hflag
      have hc3 : colorOf acc.1 next = 0 ∨ colorOf acc.1 next = 1 ∨ colorOf acc.1 next = 2 := by
        have := hrangeA next; omega
      rcases hc3 with hc | hc | hc
      · -- white successor: recurse
        cases hv : dfsVisit g fuel { acc.1 with parent := aset acc.1.parent next id } next with
        | mk stC bC =>
          have hstep : dfsStep g fuel id acc next = (stC, bC) := by
            simp [dfsStep, hflag, hc, hv]
          rw [hstep]
          obtain ⟨r', hJ'⟩ := hJex
          have hwcB : whiteCountG g { acc.1 with parent := aset acc.1.parent next id } < fuel := by
            have heq : whiteCountG g { acc.1 with parent := aset acc.1.parent next id } =
              whiteCountG g acc.1 := rfl
            omega
          have hPathB : ∀ x,
              colorOf { acc.1 with parent := aset acc.1.parent next id } x = 1 →
              Relation.ReflTransGen (SuccRel g) x next := by
            intro x hx
            have hx0 : colorOf st0 x = 1 := (hiff x).mp hx
            rw [cSt0] at hx0
            by_cases hxi : x = id
            · subst hxi; exact Relation.ReflTransGen.single hhead
            · rw [if_neg hxi] at hx0
              exact (hPath x hx0).trans (Relation.ReflTransGen.single hhead)
          have hvs := ihv _ next r' stC bC hv hc
            (mem_UList_of_succ hhead) hwcB hrangeA hJ' hPathB
          obtain ⟨hfzC, hrgC, hFC, hTC⟩ := hvs
          cases bC with
          | false =>
            obtain ⟨hblk, hiffC, hfndC, hJexC⟩ := hFC rfl
            have hFnew : ScanInvF g st0 stC := by
              refine ⟨fun x => (hiffC x).trans (hiff x), ?_, ?_, hJexC, ?_⟩
              · intro x hx
                have h1 := hfrz0 x hx
                have h2 : colorOf acc.1 x ≠ 0 := by rw [h1]; exact hx
                rw [hfzC x h2]
                exact h1
              · rw [hfndC]; exact hfnd
              · have hmono : whiteCountG g stC ≤ whiteCountG g acc.1 := by
                  apply countP_le_of_imp
                  intro x _ hx
                  rw [beq_iff_eq] at hx ⊢
                  by_contra hne
                  exact hne (hfzC x hne ▸ hx)
                omega
            obtain ⟨hfzR, hrgR, hFR, hTR⟩ := ihl htail (stC, false) hrgC
              (fun _ => hFnew) (fun h => nomatch h)
            refine ⟨?_, hrgR, fun hres => ?_, hTR⟩
            · intro x hx
              have h1 := hfzC x hx
              have h2 : colorOf stC x ≠ 0 := by rw [h1]; exact hx
              rw [hfzR x h2]
              exact h1
            · obtain ⟨_, hSF, hperY⟩ := hFR hres
              refine ⟨rfl, hSF, fun y hy => ?_⟩
              rcases List.mem_cons.mp hy with rfl | hyr
              · rw [hfzR y (by rw [hblk]; exact (by decide))]
                exact hblk
              · exact hperY y hyr
          | true =>
            obtain ⟨hcyc, s, e, hfound, hsloc⟩ := hTC rfl
            have hTnew : ScanInvT g st stC := by
              refine ⟨hcyc, s, e, hfound, ?_⟩
              rcases hsloc with hs | hs
              · have hs0 := (hiff s).mp hs
                rw [cSt0] at hs0
                by_cases hsi : s = id
                · right; rw [hsi]; exact hUid
                · rw [if_neg hsi] at hs0; exact Or.inl hs0
              · exact Or.inr hs
            obtain ⟨hfzR, hrgR, hFR, hTR⟩ := ihl htail (stC, true) hrgC
              (fun h => nomatch h) (fun _ => hTnew)
            refine ⟨?_, hrgR, fun hres => ?_, hTR⟩
            · intro x hx
              have h1 := hfzC x hx
              have h2 : colorOf stC x ≠ 0 := by rw [h1]; exact hx
              rw [hfzR x h2]
              exact h1
            · obtain ⟨habs, _⟩ := hFR hres
              exact nomatch habs
      · -- gray successor: back edge
        have hstep : dfsStep g fuel id acc next =
            ({ acc.1 with found := some (next, id) }, true) := by
          simp [dfsStep, hflag, hc]
        rw [hstep]
        have hcyc : HasCycle g := by
          have hs0 : colorOf st0 next = 1 := (hiff next).mp hc
          rw [cSt0] at hs0
          by_cases hni : next = id
          · exact ⟨id, Relation.TransGen.single (hni ▸ hhead)⟩
          · rw [if_neg hni] at hs0
            exact ⟨next, Relation.TransGen.tail' (hPath next hs0) hhead⟩
        have hTnew : ScanInvT g st { acc.1 with found := some (next, id) } :=
          ⟨hcyc, next, id, rfl, Or.inr (mem_UList_of_succ hhead)⟩
        obtain ⟨hfzR, hrgR, hFR, hTR⟩ := ihl htail ({ acc.1 with found := some (next, id) }, true)
          hrangeA (fun h => nomatch h) (fun _ => hTnew)
        refine ⟨fun x hx => hfzR x hx, hrgR, fun hres => ?_, hTR⟩
        obtain ⟨habs, _⟩ := hFR hres
        exact nomatch habs
      · -- black successor: skip
        have hstep : dfsStep g fuel id acc next = acc := by
          simp [dfsStep, hflag, hc]
        rw [hstep]
        obtain ⟨hfzR, hrgR, hFR, hTR⟩ := ihl htail acc hrangeA hF hT
        refine ⟨hfzR, hrgR, fun hres => ?_, hTR⟩
        obtain ⟨haccf, hSF, hperY⟩ := hFR hres
        refine ⟨rfl, hSF, fun y hy => ?_⟩
        rcases List.mem_cons.mp hy with rfl | hyr
        · rw [hfzR y (by rw [hc]; exact (by decide))]
          exact hc
        · exact hperY y hyr

/-- The full specification of `visit(id)` on a white node with sufficient
fuel. -/
theorem dfsVisit_spec (g : GState) :
    ∀ (fuel : Nat) (st : DfsSt) (id : String) (r : String → Nat) (st' : DfsSt) (b : Bool),
      dfsVisit g fuel st id = (st', b) →
      colorOf st id = 0 → id ∈ UList g → whiteCountG g st < fuel →
      (∀ x, colorOf st x ≤ 2) → DfsJ g r st →
      (∀ x, colorOf st x = 1 → Relation.ReflTransGen (SuccRel g) x id) →
      VisitSpec g st id st' b := by
  intro fuel
  induction fuel with
  | zero =>
    intro st id r st' b _ _ _ hfuel _ _ _
    exact absurd hfuel (Nat.not_lt_zero _)
  | succ fuel ih =>
    intro st id r st' b hrun hW hU hfuel hrange hJ hPath
    rw [dfsVisit_succ] at hrun
    dsimp only at hrun
    have cSt0 := colorOf_setColor st id 1
    have hrange0 : ∀ x, colorOf { st with color := aset st.color id 1 } x ≤ 2 := by
      intro x
      rw [cSt0]
      by_cases hx : x = id
      · rw [if_pos hx]; omega
      · rw [if_neg hx]; exact hrange x
    have hwc0lt : whiteCountG g { st with color := aset st.color id 1 } < whiteCountG g st := by
      apply countP_lt_of_mem _ _ (UList g) ?_ id hU ?_ ?_
      · intro x _ hx
        rw [beq_iff_eq] at hx ⊢
        rw [cSt0] at hx
        by_cases hxi : x = id
        · rw [if_pos hxi] at hx; exact absurd hx (by decide)
        · rw [if_neg hxi] at hx; exact hx
      · rw [beq_iff_eq]; exact hW
      · rw [cSt0, if_pos rfl]; decide
    have hJ0 : DfsJ g r { st with color := aset st.color id 1 } := by
      intro x hx y hy
      rw [cSt0] at hx
      by_cases hxi : x = id
      · rw [if_pos hxi] at hx; exact absurd hx (by decide)
      · rw [if_neg hxi] at hx
        obtain ⟨hyb, hr⟩ := hJ x hx y hy
        refine ⟨?_, hr⟩
        rw [cSt0]
        by_cases hyi : y = id
        · exfalso; rw [hyi, hW] at hyb; exact absurd hyb (by decide)
        · rw [if_neg hyi]; exact hyb
    have hSF0 : ScanInvF g { st with color := aset st.color id 1 }
        { st with color := aset st.color id 1 } :=
      ⟨fun _ => Iff.rfl, fun _ _ => rfl, rfl, ⟨r, hJ0⟩, le_refl _⟩
    obtain ⟨hfzF, hrgF, hFF, hTF⟩ :=
      dfsScan_spec g fuel st { st with color := aset st.color id 1 } id ih hU hPath cSt0
        (by omega) (succNodes g id) (fun _ hy => hy)
        ({ st with color := aset st.color id 1 }, false) hrange0 (fun _ => hSF0)
        (fun h => nomatch h)
    cases hres2 : ((succNodes g id).foldl (dfsStep g fuel id)
        ({ st with color := aset st.color id 1 }, false)).2 with
    | true =>
      rw [hres2] at hrun
      simp only [if_true] at hrun
      have hst' : ((succNodes g id).foldl (dfsStep g fuel id)
          ({ st with color := aset st.color id 1 }, false)).1 = st' := by
        rw [hrun]
      have hb : b = true := by
        have hsnd := congrArg Prod.snd hrun
        simp only at hsnd
        rw [← hsnd]; exact hres2.symm ▸ rfl
      refine ⟨?_, ?_, ?_, ?_⟩
      · intro x hx
        have hxi : x ≠ id := fun he => hx (he ▸ hW)
        have h0 : colorOf { st with color := aset st.color id 1 } x = colorOf st x := by
          rw [cSt0, if_neg hxi]
        have h1 : colorOf { st with color := aset st.color id 1 } x ≠ 0 := by
          rw [h0]; exact hx
        rw [← hst', hfzF x h1, h0]
      · intro x; rw [← hst']; exact hrgF x
      · intro hbf; exact absurd (hb ▸ hbf) (by decide)
      · intro _
        obtain ⟨hcyc, s, e, hfound, hsloc⟩ := hTF hres2
        exact ⟨hcyc, s, e, by rw [← hst']; exact hfound, hsloc⟩
    | false =>
      rw [hres2] at hrun
      simp only [Bool.false_eq_true, if_false] at hrun
      rw [Prod.mk.injEq] at hrun
      obtain ⟨hst', hb'⟩ := hrun
      have hb : b = false := hb'.symm
      obtain ⟨_, hSFres, hperY⟩ := hFF hres2
      obtain ⟨hiffR, hfrz0R, hfndR, hJexR, hwcR⟩ := hSFres
      have cFin := colorOf_setColor ((succNodes g id).foldl (dfsStep g fuel id)
        ({ st with color := aset st.color id 1 }, false)).1 id 2
      have hgrayid : colorOf ((succNodes g id).foldl (dfsStep g fuel id)
          ({ st with color := aset st.color id 1 }, false)).1 id = 1 := by
        apply (hiffR id).mpr
        rw [cSt0, if_pos rfl]
      refine ⟨?_, ?_, ?_, ?_⟩
      · intro x hx
        have hxi : x ≠ id := fun he => hx (he ▸ hW)
        have h0 : colorOf { st with color := aset st.color id 1 } x = colorOf st x := by
          rw [cSt0, if_neg hxi]
        have h1 : colorOf { st with color := aset st.color id 1 } x ≠ 0 := by
          rw [h0]; exact hx
        rw [← hst', cFin, if_neg hxi, hfzF x h1, h0]
      · intro x
        rw [← hst', cFin]
        by_cases hxi : x = id
        · rw [if_pos hxi]
        · rw [if_neg hxi]; exact hrgF x
      · intro _
        refine ⟨?_, ?_, ?_, ?_⟩
        · rw [← hst', cFin, if_pos rfl]
        · intro x
          rw [← hst', cFin]
          by_cases hxi : x = id
          · rw [if_pos hxi, hxi, hW]
            constructor
            · intro h2; exact absurd h2 (by decide)
            · intro h0; exact absurd h0 (by decide)
          · rw [if_neg hxi]
            refine (hiffR x).trans ?_
            rw [cSt0, if_neg hxi]
        · rw [← hst']
          show ((succNodes g id).foldl (dfsStep g fuel id)
            ({ st with color := aset st.color id 1 }, false)).1.found = st.found
          rw [hfndR]
        · obtain ⟨r', hJ'⟩ := hJexR
          refine ⟨fun x => if x = id then
            (((succNodes g id).map r').foldl max 0) + 1 else r' x, ?_⟩
          intro x hx y hy
          rw [← hst', cFin] at hx
          by_cases hxi : x = id
          · have hyb : colorOf ((succNodes g id).foldl (dfsStep g fuel id)
                ({ st with color := aset st.color id 1 }, false)).1 y = 2 := by
              apply hperY; rw [← hxi]; exact hy
            have hyi : y ≠ id := by
              intro he
              rw [he, hgrayid] at hyb
              exact absurd hyb (by decide)
            constructor
            · rw [← hst', cFin, if_neg hyi]; exact hyb
            · simp only [if_neg hyi, if_pos hxi]
              have hmem : r' y ∈ (succNodes g id).map r' :=
                List.mem_map.mpr ⟨y, hxi ▸ hy, rfl⟩
              have := (le_foldl_max ((succNodes g id).map r') 0).2 _ hmem
              omega
          · rw [if_neg hxi] at hx
            obtain ⟨hyb, hr⟩ := hJ' x hx y hy
            have hyi : y ≠ id := by
              intro he
              rw [he, hgrayid] at hyb
              exact absurd hyb (by decide)
            constructor
            · rw [← hst', cFin, if_neg hyi]; exact hyb
            · simp only [if_neg hyi, if_neg hxi]; exact hr
      · intro hbt; exact absurd (hb ▸ hbt) (by decide)

theorem whiteCountG_lt_dfsFuel (g : GState) (st : DfsSt) : whiteCountG g st < dfsFuel g := by
  unfold whiteCountG dfsFuel
  have h1 : (UList g).countP (fun x => colorOf st x == 0) ≤ (UList g).length :=
    List.countP_le_length _
  have h2 : (UList g).length ≤ (akeys g.nodeMap ++ g.edgeMap.map (fun p => p.2.targetId)).length :=
    (List.dedup_sublist _).length_le
  rw [List.length_append, List.length_map] at h2
  have h3 : (akeys g.nodeMap).length = asize g.nodeMap := by
    unfold akeys asize; rw [List.length_map]
  unfold asize at *
  omega

/-- Walking the blackening ranks along a nonempty path: from a black node
every reachable node is black with strictly smaller rank. -/
theorem dfsJ_reach_black (g : GState) (r : String → Nat) (st : DfsSt)
    (hJ : DfsJ g r st) :
    ∀ u v, Relation.TransGen (SuccRel g) u v → colorOf st u = 2 →
      colorOf st v = 2 ∧ r v < r u := by
  intro u v h
  induction h with
  | single hs => intro hu; exact hJ u hu _ hs
  | tail h1 hs ih =>
    intro hu
    obtain ⟨hb, hr⟩ := ih hu
    obtain ⟨hb2, hr2⟩ := hJ _ hb _ hs
    exact ⟨hb2, lt_trans hr2 hr⟩

/-- The outer `for (const id of nodeMap.keys())` loop of the full checker:
a `none` final back edge leaves a gray-free, rank-ordered colouring with
every listed node black; a recorded back edge witnesses a directed cycle
with a `start` inside the touchable universe. -/
theorem dfsAll_spec (g : GState) (fuel : Nat)
    (hfuel : ∀ st : DfsSt, whiteCountG g st < fuel) :
    ∀ (l : List String) (st : DfsSt),
      (∀ x, colorOf st x ≠ 1) → (∀ x, colorOf st x ≤ 2) →
      (∃ r, DfsJ g r st) → st.found = none → (∀ x ∈ l, x ∈ UList g) →
      ((dfsAll g fuel l st).found = none →
        (∀ x, colorOf (dfsAll g fuel l st) x ≠ 1) ∧
        (∀ x, colorOf (dfsAll g fuel l st) x ≤ 2) ∧
        (∃ r, DfsJ g r (dfsAll g fuel l st)) ∧
        (∀ x, colorOf st x = 2 → colorOf (dfsAll g fuel l st) x = 2) ∧
        (∀ y ∈ l, colorOf (dfsAll g fuel l st) y = 2)) ∧
      ((dfsAll g fuel l st).found ≠ none → HasCycle g ∧
        ∃ s e, (dfsAll g fuel l st).found = some (s, e) ∧ s ∈ UList g) := by
  intro l
  induction l with
  | nil =>
    intro st hng hrg hJex hfnd _
    constructor
    · intro _
      exact ⟨hng, hrg, hJex, fun _ hx => hx, fun y hy => absurd hy (List.not_mem_nil _)⟩
    · intro h
      exact absurd hfnd h
  | cons id rest ihl =>
    intro st hng hrg hJex hfnd hmem
    by_cases hw : colorOf st id = 0
    · have hbeq : (colorOf st id == 0) = true := by rw [beq_iff_eq]; exact hw
      cases hv : dfsVisit g fuel st id with
      | mk stC bC =>
        obtain ⟨rr, hJ⟩ := hJex
        have hvs := dfsVisit_spec g fuel st id rr stC bC hv hw
          (hmem id (List.mem_cons_self _ _)) (hfuel st) hrg hJ
          (fun x hx => absurd hx (hng x))
        obtain ⟨hfz, hrg', hFC, hTC⟩ := hvs
        cases bC with
        | true =>
          have hred : dfsAll g fuel (id :: rest) st = stC := by
            simp only [dfsAll, hbeq, if_true, hv]
          obtain ⟨hcyc, s, e, hfd, hsl⟩ := hTC rfl
          have hsU : s ∈ UList g := by
            rcases hsl with hs | hs
            · exact absurd hs (hng s)
            · exact hs
          rw [hred]
          constructor
          · intro h
            rw [hfd] at h
            exact Option.noConfusion h
          · intro _
            exact ⟨hcyc, s, e, hfd, hsU⟩
        | false =>
          obtain ⟨hblk, hiffC, hfndC, hJexC⟩ := hFC rfl
          have hred : dfsAll g fuel (id :: rest) st = dfsAll g fuel rest stC := by
            simp only [dfsAll, hbeq, if_true, hv]
          have hngC : ∀ x, colorOf stC x ≠ 1 := fun x hx => hng x ((hiffC x).mp hx)
          have hfndC2 : stC.found = none := by rw [hfndC]; exact hfnd
          obtain ⟨hA, hB⟩ := ihl stC hngC hrg' hJexC hfndC2
            (fun x hx => hmem x (List.mem_cons_of_mem _ hx))
          rw [hred]
          refine ⟨?_, hB⟩
          intro hfin
          obtain ⟨hng2, hrg2, hJ2, hfrz2, hall2⟩ := hA hfin
          refine ⟨hng2, hrg2, hJ2, ?_, ?_⟩
          · intro x hx
            have hxC : colorOf stC x = 2 := by
              rw [hfz x (by rw [hx]; exact (by decide))]
              exact hx
            exact hfrz2 x hxC
          · intro y hy
            rcases List.mem_cons.mp hy with rfl | hyr
            · exact hfrz2 y hblk
            · exact hall2 y hyr
    · have hbeq : (colorOf st id == 0) = false := by
        rw [beq_eq_false_iff_ne]
        exact hw
      have hred : dfsAll g fuel (id :: rest) st = dfsAll g fuel rest st := by
        simp only [dfsAll, hbeq, Bool.false_eq_true, if_false]
      obtain ⟨hA, hB⟩ := ihl st hng hrg hJex hfnd
        (fun x hx => hmem x (List.mem_cons_of_mem _ hx))
      rw [hred]
      refine ⟨?_, hB⟩
      intro hfin
      obtain ⟨hng2, hrg2, hJ2, hfrz2, hall2⟩ := hA hfin
      refine ⟨hng2, hrg2, hJ2, hfrz2, ?_⟩
      intro y hy
      rcases List.mem_cons.mp hy with rfl | hyr
      · have h2 : colorOf st y = 2 := by
          have h3 := hrg y
          have h4 := hng y
          omega
        exact hfrz2 y h2
      · exact hall2 y hyr

/-- `_checkCyclesFull` returns ok exactly when the graph has no directed
cycle, provided every node with a successor is a key of `nodeMap` (so the
outer loop starts a DFS inside every cycle) and the empty-string id is not
a touchable node (so the `if (!start)` truthiness test never fires). -/
theorem checkCyclesFull_ok (g : GState)
    (Hcl : ∀ u, succNodes g u ≠ [] → u ∈ akeys g.nodeMap)
    (Hne : "" ∉ UList g) :
    checkCyclesFull g = .ok () ↔ ¬ HasCycle g := by
  have hcol0 : ∀ x, colorOf ⟨[], [], none⟩ x = 0 := fun _ => rfl
  have hng : ∀ x, colorOf (⟨[], [], none⟩ : DfsSt) x ≠ 1 := by
    intro x
    rw [hcol0]
    decide
  have hrg : ∀ x, colorOf (⟨[], [], none⟩ : DfsSt) x ≤ 2 := by
    intro x
    rw [hcol0]
    decide
  have hJex : ∃ r, DfsJ g r (⟨[], [], none⟩ : DfsSt) := by
    refine ⟨fun _ => 0, fun x hx => ?_⟩
    rw [hcol0] at hx
    exact absurd hx (by decide)
  obtain ⟨hA, hB⟩ := dfsAll_spec g (dfsFuel g) (whiteCountG_lt_dfsFuel g)
    (akeys g.nodeMap) ⟨[], [], none⟩ hng hrg hJex rfl (fun _ hx => mem_UList_of_key hx)
  cases hfound : (dfsAll g (dfsFuel g) (akeys g.nodeMap) ⟨[], [], none⟩).found with
  | none =>
    have hok : checkCyclesFull g = .ok () := by
      simp only [checkCyclesFull]
      rw [hfound]
    rw [hok]
    obtain ⟨_, _, ⟨r, hJ⟩, _, hall⟩ := hA hfound
    constructor
    · rintro _ ⟨u, hu⟩
      have hsuc : succNodes g u ≠ [] := by
        intro he
        obtain ⟨c, h1, _⟩ := Relation.TransGen.head'_iff.mp hu
        have h2 : c ∈ succNodes g u := h1
        rw [he] at h2
        exact absurd h2 (List.not_mem_nil _)
      have hub := hall u (Hcl u hsuc)
      have := (dfsJ_reach_black g r _ hJ u u hu hub).2
      exact absurd this (lt_irrefl _)
    · intro _
      rfl
  | some p =>
    obtain ⟨hcyc, s, e, hfd, hsU⟩ := hB (by rw [hfound]; exact fun h => Option.noConfusion h)
    rw [hfound] at hfd
    injection hfd with hp
    subst hp
    have hsne : (s == "") = false := by
      rw [beq_eq_false_iff_ne]
      intro he
      rw [he] at hsU
      exact Hne hsU
    have herr : checkCyclesFull g ≠ .ok () := by
      simp only [checkCyclesFull]
      rw [hfound]
      simp only [hsne, Bool.false_eq_true, if_false]
      exact fun h => Except.noConfusion h
    constructor
    · intro h
      exact absurd h herr
    · intro hnc
      exact absurd hcyc hnc

theorem layerOfE_typeErr {g : GState} {x : String} {e : Err}
    (h : layerOfE g x = .error e) : IsTypeErr e := by
  unfold layerOfE at h
  cases h1 : aget g.layerMap x with
  | none =>
    simp only [h1] at h
    injection h with h2
    exact ⟨_, h2.symm⟩
  | some lid =>
    simp only [h1] at h
    cases h2 : aget g.layers lid with
    | none =>
      simp only [h2] at h
      injection h with h3
      exact ⟨_, h3.symm⟩
    | some l =>
      simp only [h2] at h
      exact Except.noConfusion h

theorem mapM_layerOfE_typeErr {g : GState} :
    ∀ {l : List String} {e : Err}, l.mapM (layerOfE g) = .error e → IsTypeErr e := by
  intro l
  induction l with
  | nil =>
    intro e h
    rw [List.mapM_nil] at h
    exact Except.noConfusion h
  | cons a t ih =>
    intro e h
    rw [List.mapM_cons] at h
    cases h1 : layerOfE g a with
    | error e1 =>
      rw [h1] at h
      injection h with h2
      exact h2 ▸ layerOfE_typeErr h1
    | ok v =>
      rw [h1] at h
      cases h2 : t.mapM (layerOfE g) with
      | error e2 =>
        rw [h2] at h
        injection h with h3
        exact h3 ▸ ih h2
      | ok vs =>
        rw [h2] at h
        exact Except.noConfusion h

theorem moveNodeLayer_typeErr {g : GState} {id : String} {ni : Int} {e : Err}
    (h : moveNodeLayer g id ni = .error e) : IsTypeErr e := by
  unfold moveNodeLayer at h
  cases hlb : layerByIndex g ni with
  | mk g2 nlo =>
    simp only [hlb] at h
    cases holb : (aget g.layerMap id).bind (aget g.layers) with
    | none =>
      simp only [holb] at h
      injection h with h2
      exact ⟨_, h2.symm⟩
    | some ol =>
      simp only [holb] at h
      cases nlo with
      | none =>
        injection h with h2
        exact ⟨_, h2.symm⟩
      | some nl =>
        dsimp only at h
        by_cases hc : (sdel ol.nodes id).length = 0
        · rw [if_pos hc] at h
          exact Except.noConfusion h
        · rw [if_neg hc] at h
          exact Except.noConfusion h

/-! ### Counterexamples and code-bug evaluations -/

/-- C1 counterexample: committing the single edge `a1 → a2` onto 20
isolated nodes takes the incremental path (`totalNodes = 20`, change ratio
`1/20 ≤ 0.2`) and raises `CycleDetected`, although the graph obtained by
applying the batch — 20 nodes with the one edge `a1 → a2` — contains no
directed cycle.  This refutes the claimed equivalence between raising and
the presence of a cycle. -/
theorem C1_counterexample :
    flatPost = .error (.cycleDetected ["a2", "a1"]) ∧ ¬ HasCycle flatApplied :=
  ⟨rfl, noCycle_of_rankedB (g := flatApplied) (m := [("a2", 1)]) rfl⟩

/-- C5 counterexample: on the same incremental run the reported cycle is
`["a2", "a1"]` — the reversed BFS route `a1 → a2` — and does not end with
the target `a2` again, contradicting the claimed form `v ← … ← u ← v` with
`v` closing the loop. -/
theorem C5_counterexample :
    flatPost = .error (.cycleDetected ["a2", "a1"]) ∧
    findRoute flatApplied "a1" "a2" = some ["a1", "a2"] ∧
    ["a2", "a1"].getLast? ≠ some "a2" :=
  ⟨rfl, rfl, by decide⟩

/-- C2 code-bug evaluation: re-adding the existing id `n2` to the graph
`n1 → n2` commits successfully, yet the edge `n1-n2` is still stored while
both endpoints sit at layer index 0 — the layer-monotonicity invariant
the claim states is violated by the committed graph. -/
theorem C2_code_bug_eval :
    dupPost = .ok dupBad ∧
    aget dupBad.edgeMap "n1-n2" = some (mkEdge "n1" "n2") ∧
    layerOf? dupBad "n1" = some 0 ∧ layerOf? dupBad "n2" = some 0 ∧
    ¬ LayerMono dupBad := by
  refine ⟨rfl, rfl, rfl, rfl, ?_⟩
  intro h
  obtain ⟨lu, lv, h1, h2, hlt⟩ := h "n1-n2" (mkEdge "n1" "n2") rfl
  rw [show layerOf? dupBad (mkEdge "n1" "n2").sourceId = some 0 from rfl] at h1
  rw [show layerOf? dupBad (mkEdge "n1" "n2").targetId = some 0 from rfl] at h2
  injection h1 with h1
  injection h2 with h2
  omega

/-- C10: re-adding the existing id `n2` overwrites the node record, resets
`predMap["n2"]` and `succMap["n2"]` to empty sets, reassigns `n2` to layer
0 and adds it to layer 0's node set without removing it from layer 1's
node set, while the edge `n1-n2` (targeting `n2`) stays in `edgeMap` — so
after the commit `predMap["n2"]` no longer lists the in-edges of `n2`, and
`n2` appears in two layers' node sets. -/
theorem C10_duplicate_readd :
    dupPost = .ok dupBad ∧
    aget dupBad.nodeMap "n2" = some (mkNode "n2") ∧
    aget dupBad.predMap "n2" = some [] ∧
    aget dupBad.succMap "n2" = some [] ∧
    aget dupBad.layerMap "n2" = some 0 ∧
    aget dupBad.edgeMap "n1-n2" = some (mkEdge "n1" "n2") ∧
    aget dupBad.layers 0 = some { id := 0, index := 0, nodes := ["n1", "n2"] } ∧
    aget dupBad.layers 1 = some { id := 1, index := 1, nodes := ["n2"] } ∧
    ¬ PredExact dupBad := by
  refine ⟨rfl, rfl, rfl, rfl, rfl, rfl, rfl, rfl, ?_⟩
  intro h
  have hmem := (h "n2" [] rfl "n1-n2").mpr ⟨mkEdge "n1" "n2", rfl, rfl⟩
  simp at hmem

/-- C4 counterexample: removing the only node of a one-node graph commits
successfully but leaves the emptied layer 0 in `layerList` — a committed
graph with an empty layer. -/
theorem C4_counterexample :
    solePost = .ok soleBad ∧ soleBad.layerList = [0] ∧
    aget soleBad.layers 0 = some { id := 0, index := 0, nodes := [] } ∧
    ¬ NoEmptyLayer soleBad := by
  refine ⟨rfl, rfl, rfl, ?_⟩
  intro h
  have hm : (0 : Nat) ∈ soleBad.layerList := by
    rw [show soleBad.layerList = [0] from rfl]; simp
  obtain ⟨l, hl, hne⟩ := h 0 hm
  rw [show aget soleBad.layers 0 = some { id := 0, index := 0, nodes := [] } from rfl] at hl
  injection hl with hl
  exact hne (by rw [← hl])

/-- C8 counterexample: in the committed graph for `n1 → n2 → n3`,
`n4 → n3` (the test suite's own `should push parents down` scenario),
node `n4` has no predecessors yet is assigned layer 1, not layer 0. -/
theorem C8_counterexample :
    pushPost = .ok pushBad ∧ predNodes pushBad "n4" = [] ∧
    layerOf? pushBad "n4" = some 1 ∧ layerOf? pushBad "n4" ≠ some 0 :=
  ⟨rfl, rfl, rfl, by decide⟩

/-- C6 code-bug evaluation: removing an absent node id is not a no-op —
the commit raises the `TypeError` from reading `.nodes` of `undefined`
(on the empty graph and on a one-node graph alike).  Removing an absent
edge from a one-node graph is a no-op, but on the empty graph it still
creates (and keeps) an empty layer 0. -/
theorem C6_code_bug_eval :
    runUpdate emptyGState { removedNodes := [mkNode "n1"] } = .error (.typeError "nodes") ∧
    thenUpdate solePre { removedNodes := [mkNode "nX"] } = .error (.typeError "nodes") ∧
    thenUpdate solePre { removedEdges := [mkEdge "x" "y"] } = .ok (okState solePre) ∧
    runUpdate emptyGState { removedEdges := [mkEdge "x" "y"] } = .ok emptyWithLayer0 :=
  ⟨rfl, rfl, rfl, rfl⟩

/-! ### C3: cycle atomicity, and C9: immutability of prior versions -/

theorem returnsNewVersion_withMutations (g : Graph) (c : Changes) :
    ReturnsNewVersion g (g.withMutationsC c) := by
  unfold ReturnsNewVersion Graph.withMutationsC
  by_cases hc : c.isEmptyChanges
  · exact Or.inr ⟨.mk g.st (some g), by simp [hc], rfl⟩
  · cases hr : runUpdate g.st c with
    | error err => exact Or.inl ⟨err, by simp [hc, hr, Except.map]⟩
    | ok st => exact Or.inr ⟨.mk st (some g), by simp [hc, hr, Except.map], rfl⟩

/-- C3: when the cycle check makes `update()` raise, the error — carrying
the detected cycle — propagates unchanged through the facade to the
caller, and no graph value is returned; the caller's graph `g` (from whose
state every observation is computed) is an immutable value the commit
never writes to, so its observations are those it had before the call. -/
theorem C3_cycle_atomicity (g : Graph) (c : Changes) (l : List String)
    (hne : c.isEmptyChanges = false)
    (h : runUpdate g.st c = .error (.cycleDetected l)) :
    g.withMutationsC c = .error (.cycleDetected l) ∧
    ∀ g2 : Graph, g.withMutationsC c ≠ .ok g2 := by
  have hw : g.withMutationsC c = .error (.cycleDetected l) := by
    simp [Graph.withMutationsC, hne, h, Except.map]
  refine ⟨hw, fun g2 hg2 => ?_⟩
  rw [hw] at hg2
  cases hg2

theorem C3_witness :
    Graph.withMutationsC (Graph.mk (okState cyc3Pre) none) { addedEdges := [mkEdge "n3" "n1"] } =
      .error (.cycleDetected ["n1", "n2", "n3", "n1"]) ∧
    ∀ g2 : Graph,
      Graph.withMutationsC (Graph.mk (okState cyc3Pre) none) { addedEdges := [mkEdge "n3" "n1"] } ≠
        .ok g2 :=
  C3_cycle_atomicity (Graph.mk (okState cyc3Pre) none) { addedEdges := [mkEdge "n3" "n1"] }
    ["n1", "n2", "n3", "n1"] rfl rfl

/-- C9: every public mutation entry point either raises or produces a new
graph version whose `prior` field is the original graph value `g` itself —
the operations construct a fresh version and never write to `g`, whose
observations (`isEmpty`, `hasNode`, `hasEdge`, `getNode`, `getEdge`,
`predNodes`, `succNodes`, `layerOf`, `layers`, `layerMap`, `layerList`)
are all computed from the unmodified `g.st`. -/
theorem C9_immutability (g : Graph) (n : Node) (e : Edge) (ns : List Node)
    (es : List Edge) (s : String) (c : Changes) :
    ReturnsNewVersion g (g.addNodeG n) ∧ ReturnsNewVersion g (g.addNodesG ns) ∧
    ReturnsNewVersion g (g.addEdgeG e) ∧ ReturnsNewVersion g (g.addEdgesG es) ∧
    ReturnsNewVersion g (g.removeNodeG n) ∧ ReturnsNewVersion g (g.removeNodeById s) ∧
    ReturnsNewVersion g (g.removeNodesG ns) ∧ ReturnsNewVersion g (g.removeEdgeG e) ∧
    ReturnsNewVersion g (g.removeEdgesG es) ∧ ReturnsNewVersion g (g.withMutationsC c) :=
  ⟨returnsNewVersion_withMutations g _, returnsNewVersion_withMutations g _,
   returnsNewVersion_withMutations g _, returnsNewVersion_withMutations g _,
   returnsNewVersion_withMutations g _, returnsNewVersion_withMutations g _,
   returnsNewVersion_withMutations g _, returnsNewVersion_withMutations g _,
   returnsNewVersion_withMutations g _, returnsNewVersion_withMutations g _⟩

/-! ### C7: adding an edge with an absent endpoint -/

theorem domAgree_congr {g g' : GState} (hn : g'.nodeMap = g.nodeMap)
    (hp : g'.predMap = g.predMap) (hs : g'.succMap = g.succMap)
    (h : DomAgree g) : DomAgree g' := by
  intro id
  simp only [ahas, hasNodeG]
  rw [hn, hp, hs]
  have h' := h id
  simp only [ahas, hasNodeG] at h'
  exact h' 

theorem pushLayer_iter_fields (n : Nat) (g : GState) :
    (pushLayer^[n] g).nodeMap = g.nodeMap ∧ (pushLayer^[n] g).predMap = g.predMap ∧
    (pushLayer^[n] g).succMap = g.succMap ∧ (pushLayer^[n] g).edgeMap = g.edgeMap ∧
    (pushLayer^[n] g).layerMap = g.layerMap := by
  induction n generalizing g with
  | zero => exact ⟨rfl, rfl, rfl, rfl, rfl⟩
  | succ n ih =>
    rw [Function.iterate_succ_apply]
    exact ih (pushLayer g)

theorem layerLookup_fst (g' : GState) (i : Int) : (layerLookup g' i).1 = g' := by
  unfold layerLookup
  cases listGetWrap g'.layerList i <;> rfl

theorem layerByIndex_fst (g : GState) (i : Int) :
    (layerByIndex g i).1 = pushLayer^[(i + 1 - (g.layerList.length : Int)).toNat] g :=
  layerLookup_fst _ _

theorem domAgree_addNodesLoop (lid : Nat) :
    ∀ (ns : List Node) (g : GState) (nodes : SSet), DomAgree g →
      DomAgree (addNodesLoop lid ns g nodes).1 := by
  intro ns
  induction ns with
  | nil => intro g nodes h; exact h
  | cons n t ih =>
    intro g nodes h
    refine ih _ _ ?_
    intro id
    simp only [ahas, hasNodeG]
    by_cases hid : id = n.id
    · subst hid
      simp [aget_aset_self]
    · simp only [aget_aset_ne hid]
      have h' := h id
      simp only [ahas, hasNodeG] at h'
      exact h' 

theorem domAgree_removeNodesLoop :
    ∀ (ns : List Node) (g : GState) (extra : List Edge) (gB : GState) (ra : List Edge),
      DomAgree g → removeNodesLoop ns g extra = .ok (gB, ra) → DomAgree gB := by
  intro ns
  induction ns with
  | nil =>
    intro g extra gB ra h hrun
    unfold removeNodesLoop at hrun
    injection hrun with hrun
    injection hrun with h1 h2
    exact h1 ▸ h
  | cons n t ih =>
    intro g extra gB ra h hrun
    unfold removeNodesLoop at hrun
    cases hl : (aget g.layerMap n.id).bind (aget g.layers) with
    | none => rw [hl] at hrun; cases hrun
    | some l =>
      rw [hl] at hrun
      refine ih _ _ _ _ ?_ hrun
      intro id
      simp only [ahas, hasNodeG]
      by_cases hid : id = n.id
      · subst hid
        simp [aget_adel_self]
      · simp only [aget_adel_ne hid]
        have h' := h id
        simp only [ahas, hasNodeG] at h'
        exact h' 

theorem domAgree_applyNodePhases {g : GState} {c : Changes} {gB : GState} {ra : List Edge}
    (hda : DomAgree g) (h : applyNodePhases g c = .ok (gB, ra)) : DomAgree gB := by
  unfold applyNodePhases at h
  cases hlbi : layerByIndex g 0 with
  | mk g0 opt =>
    rw [hlbi] at h
    cases opt with
    | none => cases h
    | some layer =>
      dsimp only at h
      have hg0 : g0 = pushLayer^[((0 : Int) + 1 - (g.layerList.length : Int)).toNat] g := by
        have hfst := layerByIndex_fst g 0
        rw [hlbi] at hfst
        exact hfst
      have hda0 : DomAgree g0 := by
        obtain ⟨h1, h2, h3, _, _⟩ :=
          pushLayer_iter_fields ((0 : Int) + 1 - (g.layerList.length : Int)).toNat g
        exact domAgree_congr (hg0 ▸ h1) (hg0 ▸ h2) (hg0 ▸ h3) hda
      have hda1 : DomAgree (addNodesLoop layer.id c.addedNodes g0 layer.nodes).1 :=
        domAgree_addNodesLoop layer.id c.addedNodes g0 layer.nodes hda0
      unfold applyNodePhasesAux at h
      refine domAgree_removeNodesLoop c.removedNodes _ c.removedEdges gB ra ?_ h
      exact domAgree_congr rfl rfl rfl hda1

theorem addEdgesLoop_fail :
    ∀ (es : List Edge) (g : GState),
      (∃ e ∈ es, aget g.predMap e.targetId = none ∨ aget g.succMap e.sourceId = none) →
      addEdgesLoop es g = .error (.typeError "add") := by
  intro es
  induction es with
  | nil => intro g h; obtain ⟨e, he, _⟩ := h; cases he
  | cons e t ih =>
    intro g h
    unfold addEdgesLoop
    simp only
    cases hp : aget g.predMap e.targetId with
    | none => rfl
    | some ps =>
      cases hs : aget g.succMap e.sourceId with
      | none => rfl
      | some ss =>
        apply ih
        obtain ⟨e', he', hbad⟩ := h
        rcases List.mem_cons.mp he' with rfl | ht
        · rcases hbad with hbad | hbad
          · rw [hp] at hbad; cases hbad
          · rw [hs] at hbad; cases hbad
        · refine ⟨e', ht, ?_⟩
          rcases hbad with hbad | hbad
          · left
            show aget (aset g.predMap e.targetId (sadd ps (edgeIdOf e))) e'.targetId = none
            by_cases htt : e'.targetId = e.targetId
            · rw [htt] at hbad; rw [hp] at hbad; cases hbad
            · rw [aget_aset_ne htt]; exact hbad
          · right
            show aget (aset g.succMap e.sourceId (sadd ss (edgeIdOf e))) e'.sourceId = none
            by_cases hss : e'.sourceId = e.sourceId
            · rw [hss] at hbad; rw [hs] at hbad; cases hbad
            · rw [aget_aset_ne hss]; exact hbad

/-- C7: adding an edge whose source or target is absent from `nodeMap` at
the moment added edges are applied makes the commit fail — with the
`TypeError` raised by reading `.add` of the missing `predMap`/`succMap`
entry, which is the code's rendering of the spec's `UnknownEndpoint`
failure kind — and the failure is atomic: the error propagates through the
facade and no graph value is returned, leaving the caller with the
untouched prior graph. -/
theorem C7_unknown_endpoint (g : GState) (p : Option Graph) (c : Changes)
    (gB : GState) (ra : List Edge)
    (hda : DomAgree g)
    (hn : applyNodePhases g c = .ok (gB, ra))
    (hbad : ∃ e ∈ c.addedEdges,
      hasNodeG gB e.sourceId = false ∨ hasNodeG gB e.targetId = false) :
    runUpdate g c = .error (.typeError "add") ∧
    Graph.withMutationsC (Graph.mk g p) c = .error (.typeError "add") ∧
    ∀ g2 : Graph, Graph.withMutationsC (Graph.mk g p) c ≠ .ok g2 := by
  have hdaB : DomAgree gB := domAgree_applyNodePhases hda hn
  have hfail : addEdgesLoop c.addedEdges gB = .error (.typeError "add") := by
    apply addEdgesLoop_fail
    obtain ⟨e, he, hb⟩ := hbad
    refine ⟨e, he, ?_⟩
    rcases hb with hb | hb
    · right
      cases hx : aget gB.succMap e.sourceId with
      | none => rfl
      | some s =>
        exfalso
        have h2 := (hdaB e.sourceId).2
        rw [hb] at h2
        unfold ahas at h2
        rw [hx] at h2
        cases h2
    · left
      cases hx : aget gB.predMap e.targetId with
      | none => rfl
      | some s =>
        exfalso
        have h2 := (hdaB e.targetId).1
        rw [hb] at h2
        unfold ahas at h2
        rw [hx] at h2
        cases h2
  have happ : applyChanges g c = .error (.typeError "add") := by
    unfold applyChanges
    rw [hn]
    dsimp only
    rw [hfail]
  have hrun : runUpdate g c = .error (.typeError "add") := by
    unfold runUpdate
    rw [happ]
  have hne : c.isEmptyChanges = false := by
    obtain ⟨e, he, _⟩ := hbad
    unfold Changes.isEmptyChanges
    cases hE : c.addedEdges with
    | nil => rw [hE] at he; cases he
    | cons a t => simp [hE]
  have hw : Graph.withMutationsC (Graph.mk g p) c = .error (.typeError "add") := by
    simp [Graph.withMutationsC, hne, Except.map, Graph.st, hrun]
  refine ⟨hrun, hw, fun g2 hg2 => ?_⟩
  rw [hw] at hg2
  cases hg2

theorem C7_witness :
    runUpdate (okState solePre) { addedEdges := [mkEdge "n1" "nX"] } =
      .error (.typeError "add") ∧
    Graph.withMutationsC (Graph.mk (okState solePre) none) { addedEdges := [mkEdge "n1" "nX"] } =
      .error (.typeError "add") ∧
    ∀ g2 : Graph,
      Graph.withMutationsC (Graph.mk (okState solePre) none)
        { addedEdges := [mkEdge "n1" "nX"] } ≠ .ok g2 :=
  C7_unknown_endpoint (okState solePre) none { addedEdges := [mkEdge "n1" "nX"] }
    (okState solePre) []
    (by
      intro id
      simp only [ahas, hasNodeG]
      rw [show (okState solePre).predMap = [("n1", ([] : SSet))] from rfl,
          show (okState solePre).succMap = [("n1", ([] : SSet))] from rfl,
          show (okState solePre).nodeMap = [("n1", mkNode "n1")] from rfl]
      simp only [aget_cons]
      cases h : (("n1" : String) == id) <;> simp [h, aget_nil])
    rfl
    ⟨mkEdge "n1" "nX", by simp, Or.inr rfl⟩

/-! ### The layer updater: error kinds and core preservation -/

theorem sameCore_refl (g : GState) : SameCore g g := ⟨rfl, rfl, rfl, rfl⟩

theorem sameCore_trans {a b c : GState} (h1 : SameCore a b) (h2 : SameCore b c) :
    SameCore a c :=
  ⟨h1.1.trans h2.1, h1.2.1.trans h2.2.1, h1.2.2.1.trans h2.2.2.1, h1.2.2.2.trans h2.2.2.2⟩

theorem pushLayer_iter_core (n : Nat) (g : GState) : SameCore (pushLayer^[n] g) g := by
  obtain ⟨h1, h2, h3, h4, _⟩ := pushLayer_iter_fields n g
  exact ⟨h1, h4, h2, h3⟩

theorem moveNodeLayer_core {g : GState} {id : String} {ni : Int} {g' : GState}
    (h : moveNodeLayer g id ni = .ok g') : SameCore g' g := by
  unfold moveNodeLayer at h
  cases hlb : layerByIndex g ni with
  | mk g2 nlo =>
    have hg2 : SameCore g2 g := by
      have hfst := layerByIndex_fst g ni
      rw [hlb] at hfst
      dsimp only at hfst
      rw [hfst]
      exact pushLayer_iter_core _ g
    simp only [hlb] at h
    cases holb : (aget g.layerMap id).bind (aget g.layers) with
    | none =>
      simp only [holb] at h
      exact Except.noConfusion h
    | some ol =>
      simp only [holb] at h
      cases nlo with
      | none => exact Except.noConfusion h
      | some nl =>
        dsimp only at h
        by_cases hc : (sdel ol.nodes id).length = 0
        · rw [if_pos hc] at h
          injection h with h2
          rw [← h2]
          exact hg2
        · rw [if_neg hc] at h
          injection h with h2
          rw [← h2]
          exact hg2

theorem phase1_typeErr :
    ∀ (fuel : Nat) (g : GState) (stack : List String) (ph2 : SSet) {e : Err},
      phase1 fuel g stack ph2 = .error e → IsTypeErr e := by
  intro fuel
  induction fuel with
  | zero =>
    intro g stack ph2 e h
    unfold phase1 at h
    injection h with h2
    exact ⟨_, h2.symm⟩
  | succ fuel ih =>
    intro g stack ph2 e h
    unfold phase1 at h
    cases hl : stack.getLast? with
    | none =>
      simp only [hl] at h
      exact Except.noConfusion h
    | some id =>
      simp only [hl] at h
      split at h
      · rename_i e1 hm
        injection h with h2
        exact h2 ▸ mapM_layerOfE_typeErr hm
      · split at h
        · rename_i e1 hc
          injection h with h2
          exact h2 ▸ layerOfE_typeErr hc
        · split at h
          · split at h
            · exact ih _ _ _ h
            · split at h
              · rename_i e1 hmv
                injection h with h2
                exact h2 ▸ moveNodeLayer_typeErr hmv
              · exact ih _ _ _ h
          · split at h
            · exact ih _ _ _ h
            · split at h
              · rename_i e1 hmv
                injection h with h2
                exact h2 ▸ moveNodeLayer_typeErr hmv
              · exact ih _ _ _ h

theorem phase1_core :
    ∀ (fuel : Nat) (g : GState) (stack : List String) (ph2 : SSet) {g' : GState} {ph2' : SSet},
      phase1 fuel g stack ph2 = .ok (g', ph2') → SameCore g' g := by
  intro fuel
  induction fuel with
  | zero =>
    intro g stack ph2 g' ph2' h
    unfold phase1 at h
    exact Except.noConfusion h
  | succ fuel ih =>
    intro g stack ph2 g' ph2' h
    unfold phase1 at h
    cases hl : stack.getLast? with
    | none =>
      simp only [hl] at h
      injection h with h2
      injection h2 with h3 h4
      rw [← h3]
      exact sameCore_refl g
    | some id =>
      simp only [hl] at h
      split at h
      · exact Except.noConfusion h
      · split at h
        · exact Except.noConfusion h
        · split at h
          · split at h
            · exact ih _ _ _ h
            · split at h
              · exact Except.noConfusion h
              · rename_i g3 hmv
                exact sameCore_trans (ih _ _ _ h) (moveNodeLayer_core hmv)
          · split at h
            · exact ih _ _ _ h
            · split at h
              · exact Except.noConfusion h
              · rename_i g3 hmv
                exact sameCore_trans (ih _ _ _ h) (moveNodeLayer_core hmv)

theorem phase2Bucket_typeErr :
    ∀ (fuel : Nat) (g : GState) (byLayer : AMap Nat SSet) (lid curLayer pos : Nat) {e : Err},
      phase2Bucket fuel g byLayer lid curLayer pos = .error e → IsTypeErr e := by
  intro fuel
  induction fuel with
  | zero =>
    intro g byLayer lid curLayer pos e h
    unfold phase2Bucket at h
    injection h with h2
    exact ⟨_, h2.symm⟩
  | succ fuel ih =>
    intro g byLayer lid curLayer pos e h
    unfold phase2Bucket at h
    cases hg : ((aget byLayer lid).getD []).get? pos with
    | none =>
      simp only [hg] at h
      exact Except.noConfusion h
    | some id =>
      simp only [hg] at h
      split at h
      · exact ih _ _ _ _ _ h
      · split at h
        · rename_i e1 hm
          injection h with h2
          exact h2 ▸ mapM_layerOfE_typeErr hm
        · split at h
          · exact ih _ _ _ _ _ h
          · split at h
            · rename_i e1 hmv
              injection h with h2
              exact h2 ▸ moveNodeLayer_typeErr hmv
            · exact ih _ _ _ _ _ h

theorem phase2Bucket_core :
    ∀ (fuel : Nat) (g : GState) (byLayer : AMap Nat SSet) (lid curLayer pos : Nat)
      {g' : GState} {byLayer' : AMap Nat SSet},
      phase2Bucket fuel g byLayer lid curLayer pos = .ok (g', byLayer') → SameCore g' g := by
  intro fuel
  induction fuel with
  | zero =>
    intro g byLayer lid curLayer pos g' byLayer' h
    unfold phase2Bucket at h
    exact Except.noConfusion h
  | succ fuel ih =>
    intro g byLayer lid curLayer pos g' byLayer' h
    unfold phase2Bucket at h
    cases hg : ((aget byLayer lid).getD []).get? pos with
    | none =>
      simp only [hg] at h
      injection h with h2
      injection h2 with h3 h4
      rw [← h3]
      exact sameCore_refl g
    | some id =>
      simp only [hg] at h
      split at h
      · exact ih _ _ _ _ _ h
      · split at h
        · exact Except.noConfusion h
        · split at h
          · exact ih _ _ _ _ _ h
          · split at h
            · exact Except.noConfusion h
            · rename_i g3 hmv
              exact sameCore_trans (ih _ _ _ _ _ h) (moveNodeLayer_core hmv)

theorem phase2Go_typeErr :
    ∀ (fuel : Nat) (g : GState) (byLayer : AMap Nat SSet) (lids : List Nat) {e : Err},
      phase2Go fuel g byLayer lids = .error e → IsTypeErr e := by
  intro fuel
  induction fuel with
  | zero =>
    intro g byLayer lids e h
    unfold phase2Go at h
    injection h with h2
    exact ⟨_, h2.symm⟩
  | succ fuel ih =>
    intro g byLayer lids e h
    unfold phase2Go at h
    cases lids with
    | nil => exact Except.noConfusion h
    | cons lid rest =>
      cases hgl : aget g.layers lid with
      | none =>
        simp only [hgl] at h
        injection h with h2
        exact ⟨_, h2.symm⟩
      | some l =>
        simp only [hgl] at h
        split at h
        · rename_i e1 hb
          injection h with h2
          exact h2 ▸ phase2Bucket_typeErr _ _ _ _ _ _ hb
        · exact ih _ _ _ h

theorem phase2Go_core :
    ∀ (fuel : Nat) (g : GState) (byLayer : AMap Nat SSet) (lids : List Nat) {g' : GState},
      phase2Go fuel g byLayer lids = .ok g' → SameCore g' g := by
  intro fuel
  induction fuel with
  | zero =>
    intro g byLayer lids g' h
    unfold phase2Go at h
    exact Except.noConfusion h
  | succ fuel ih =>
    intro g byLayer lids g' h
    unfold phase2Go at h
    cases lids with
    | nil =>
      injection h with h2
      rw [← h2]
      exact sameCore_refl g
    | cons lid rest =>
      cases hgl : aget g.layers lid with
      | none =>
        simp only [hgl] at h
        exact Except.noConfusion h
      | some l =>
        simp only [hgl] at h
        split at h
        · exact Except.noConfusion h
        · rename_i g2 byLayer2 hb
          exact sameCore_trans (ih _ _ _ h) (phase2Bucket_core _ _ _ _ _ _ hb)

theorem updateLayers_typeErr {g : GState} {dirty : SSet} {e : Err}
    (h : updateLayers g dirty = .error e) : IsTypeErr e := by
  unfold updateLayers at h
  split at h
  · rename_i e1 hp
    injection h with h2
    exact h2 ▸ phase1_typeErr _ _ _ _ hp
  · exact phase2Go_typeErr _ _ _ _ h

theorem updateLayers_core {g : GState} {dirty : SSet} {g' : GState}
    (h : updateLayers g dirty = .ok g') : SameCore g' g := by
  unfold updateLayers at h
  split at h
  · exact Except.noConfusion h
  · rename_i g1 ph2 hp
    exact sameCore_trans (phase2Go_core _ _ _ _ h) (phase1_core _ _ _ _ hp)

theorem succNodes_core {a b : GState} (h : SameCore a b) (x : String) :
    succNodes a x = succNodes b x := by
  unfold succNodes succIds getEdgeG
  rw [h.2.1, h.2.2.2]

theorem hasCycle_core {a b : GState} (h : SameCore a b) : HasCycle a ↔ HasCycle b := by
  have hs : ∀ u v, SuccRel a u v ↔ SuccRel b u v := by
    intro u v
    unfold SuccRel
    rw [succNodes_core h]
  constructor
  · rintro ⟨u, hu⟩
    exact ⟨u, Relation.TransGen.mono (fun x y hxy => (hs x y).mp hxy) hu⟩
  · rintro ⟨u, hu⟩
    exact ⟨u, Relation.TransGen.mono (fun x y hxy => (hs x y).mpr hxy) hu⟩

theorem checkCyclesFull_kind (g : GState) :
    checkCyclesFull g = .ok () ∨ ∃ cyc, checkCyclesFull g = .error (.cycleDetected cyc) := by
  cases hf : (dfsAll g (dfsFuel g) (akeys g.nodeMap) ⟨[], [], none⟩).found with
  | none =>
    left
    simp only [checkCyclesFull]
    rw [hf]
  | some p =>
    cases p with
    | mk s e =>
      by_cases hs : (s == "") = true
      · left
        simp only [checkCyclesFull]
        rw [hf]
        simp only [hs, if_true]
      · right
        rw [Bool.not_eq_true] at hs
        refine ⟨((([s] ++ chainTo (dfsAll g (dfsFuel g) (akeys g.nodeMap) ⟨[], [], none⟩).parent
          (asize (dfsAll g (dfsFuel g) (akeys g.nodeMap) ⟨[], [], none⟩).parent + 1) s e []) ++
          [s]).reverse).map (cycleInfo g), ?_⟩
        simp only [checkCyclesFull]
        rw [hf]
        simp only [hs, Bool.false_eq_true, if_false]

theorem mem_akeys_of_aget {κ α : Type} [BEq κ] [LawfulBEq κ] {m : AMap κ α} {k : κ} {v : α}
    (h : aget m k = some v) : k ∈ akeys m := by
  have hm := aget_mem h
  exact List.mem_map.mpr ⟨(k, v), hm, rfl⟩

/-- The closure hypothesis of the full checker follows from the (decidable
on concrete states) inclusion of the succ-map keys in the node-map keys. -/
theorem hcl_of_subkeys {g : GState}
    (hsub : ∀ k ∈ akeys g.succMap, k ∈ akeys g.nodeMap) :
    ∀ u, succNodes g u ≠ [] → u ∈ akeys g.nodeMap := by
  intro u h
  cases hs : aget g.succMap u with
  | none =>
    exfalso
    apply h
    unfold succNodes succIds
    rw [hs]
    rfl
  | some s =>
    exact hsub u (mem_akeys_of_aget hs)

/-- C1 (amended): for a batch routed to the full checker (change ratio
above 0.2 or fewer than 20 nodes) whose structural changes apply cleanly,
committing raises `CycleDetected` if and only if the graph obtained by
applying the batch's structural changes contains a directed cycle, and
every graph the commit returns contains no directed cycle.  The hypotheses
ask that in the applied graph every node with a successor is a `nodeMap`
key and that the empty-string id is not a touchable node (under which the
DFS is sound).  The claim's unrestricted equivalence is false: on the
incremental path a cycle-free batch is rejected (`C1_counterexample`). -/
theorem C1_full_path_cycle_iff (g : GState) (c : Changes) (g1 : GState) (removedAll : List Edge)
    (happ : applyChanges g c = .ok (g1, removedAll))
    (hpath : 5 * (c.addedNodes.length + c.addedEdges.length) > asize g1.nodeMap ∨
      asize g1.nodeMap < 20)
    (Hcl : ∀ u, succNodes g1 u ≠ [] → u ∈ akeys g1.nodeMap)
    (Hne : "" ∉ UList g1) :
    ((∃ cyc, runUpdate g c = .error (.cycleDetected cyc)) ↔ HasCycle g1) ∧
    (∀ gf, runUpdate g c = .ok gf → ¬ HasCycle gf) := by
  have hcheck : checkCycles g1 c = checkCyclesFull g1 := by
    unfold checkCycles
    rw [if_pos hpath]
  rcases checkCyclesFull_kind g1 with hok | ⟨cyc, herr⟩
  · have hnc : ¬ HasCycle g1 := (checkCyclesFull_ok g1 Hcl Hne).mp hok
    have hrun2 : runUpdate g c = updateLayers g1 (markDirty g1 c removedAll) := by
      simp only [runUpdate, happ, hcheck, hok]
    refine ⟨?_, ?_⟩
    · constructor
      · rintro ⟨cyc, hcy⟩
        rw [hrun2] at hcy
        obtain ⟨p, hp⟩ := updateLayers_typeErr hcy
        exact Err.noConfusion hp
      · intro hcyc
        exact absurd hcyc hnc
    · intro gf hgf
      rw [hrun2] at hgf
      intro hcy
      exact hnc ((hasCycle_core (updateLayers_core hgf)).mp hcy)
  · have hcyc1 : HasCycle g1 := by
      by_contra hnc
      rw [(checkCyclesFull_ok g1 Hcl Hne).mpr hnc] at herr
      exact Except.noConfusion herr
    have hrun2 : runUpdate g c = .error (.cycleDetected cyc) := by
      simp only [runUpdate, happ, hcheck, herr]
    refine ⟨⟨fun _ => hcyc1, fun _ => ⟨cyc, hrun2⟩⟩, ?_⟩
    intro gf hgf
    rw [hrun2] at hgf
    exact fun _ => Except.noConfusion hgf

/-- Witness for `C1_full_path_cycle_iff`: the concrete commit closing the
chain `n1 → n2 → n3` into a 3-cycle, which takes the full-checker path. -/
theorem C1_full_path_cycle_iff_witness :
    ((∃ cyc, runUpdate (okState cyc3Pre) cyc3Batch = .error (.cycleDetected cyc)) ↔
      HasCycle cyc3App.1) ∧
    (∀ gf, runUpdate (okState cyc3Pre) cyc3Batch = .ok gf → ¬ HasCycle gf) :=
  C1_full_path_cycle_iff (okState cyc3Pre) cyc3Batch cyc3App.1 cyc3App.2 rfl
    (Or.inr (by decide))
    (hcl_of_subkeys (by decide))
    (by decide)

/-- C5 (amended): whenever incremental cycle detection runs, added edges
are scanned in order; every edge whose source layer is strictly below its
target layer (on the mid-commit layer assignment) is skipped, and the first
edge failing that test stops the scan with the reversed BFS route as the
reported cycle — `CycleDetected` when `findRoute` finds a route (it always
does, since the scanned edge is already in the graph) and the
`route.map`-on-`null` TypeError otherwise.  The claim's stronger reading is
false: the check is not equivalent to cycle existence, and the reported
list is the reversed parent chain `[v, …, u]`, not `v ← … ← u ← v` closed
by `v` (`C5_counterexample`). -/
theorem C5_incremental_characterisation (g : GState) :
    (∀ es : List Edge, (∀ e ∈ es, Ascends g e) → checkCyclesIncremental g es = .ok ()) ∧
    (∀ (es1 : List Edge) (e : Edge) (es2 : List Edge),
      (∀ e' ∈ es1, Ascends g e') →
      (∃ l1 l2, layerOfE g e.sourceId = .ok l1 ∧ layerOfE g e.targetId = .ok l2 ∧ ¬ l1 < l2) →
      checkCyclesIncremental g (es1 ++ e :: es2) =
        (match findRoute g e.sourceId e.targetId with
          | none => .error (.typeError "map")
          | some route => .error (.cycleDetected ((route.map (cycleInfo g)).reverse)))) := by
  constructor
  · intro es
    induction es with
    | nil => intro _; rfl
    | cons e t ih =>
      intro h
      obtain ⟨l1, l2, h1, h2, hlt⟩ := h e (List.mem_cons_self _ _)
      simp only [checkCyclesIncremental, h1, h2, if_pos hlt]
      exact ih (fun e' he' => h e' (List.mem_cons_of_mem _ he'))
  · intro es1
    induction es1 with
    | nil =>
      intro e es2 _ hbad
      obtain ⟨l1, l2, h1, h2, hn⟩ := hbad
      rw [List.nil_append]
      simp only [checkCyclesIncremental, h1, h2, if_neg hn]
    | cons e' t ih =>
      intro e es2 hasc hbad
      obtain ⟨l1, l2, h1, h2, hlt⟩ := hasc e' (List.mem_cons_self _ _)
      rw [List.cons_append]
      simp only [checkCyclesIncremental, h1, h2, if_pos hlt]
      exact ih e es2 (fun x hx => hasc x (List.mem_cons_of_mem _ hx)) hbad

/-- Witness for `C5_incremental_characterisation`: the flat-graph run of
`C1_counterexample`, where both endpoints sit at layer 0 and the reported
cycle is the reversed two-node route. -/
theorem C5_characterisation_witness :
    checkCyclesIncremental flatApplied ([] ++ mkEdge "a1" "a2" :: []) =
      (match findRoute flatApplied (mkEdge "a1" "a2").sourceId (mkEdge "a1" "a2").targetId with
        | none => .error (.typeError "map")
        | some route => .error (.cycleDetected ((route.map (cycleInfo flatApplied)).reverse))) :=
  (C5_incremental_characterisation flatApplied).2 [] (mkEdge "a1" "a2") []
    (fun e' he' => absurd he' (List.not_mem_nil _))
    ⟨0, 0, rfl, rfl, by decide⟩

/-! ### Layer-table well-formedness -/

theorem get?_eraseIdx_lt (l : List Nat) (p i : Nat) (h : i < p) :
    (l.eraseIdx p).get? i = l.get? i := by
  by_cases hi : i < l.length
  · rw [List.eraseIdx_eq_take_drop_succ]
    rw [List.get?_append (by rw [List.length_take]; omega)]
    exact List.get?_take h
  · have hle : (l.eraseIdx p).length ≤ l.length := (List.eraseIdx_sublist l p).length_le
    have h1 : (l.eraseIdx p).get? i = none := by
      rw [List.get?_eq_none]
      omega
    have h2 : l.get? i = none := by
      rw [List.get?_eq_none]
      omega
    rw [h1, h2]

theorem get?_eraseIdx_ge (l : List Nat) (p i : Nat) (hp : p < l.length) (h : p ≤ i) :
    (l.eraseIdx p).get? i = l.get? (i + 1) := by
  rw [List.eraseIdx_eq_take_drop_succ]
  rw [List.get?_append_right (by rw [List.length_take]; omega)]
  rw [List.get?_drop]
  congr 1
  rw [List.length_take]
  omega

theorem layerWF_empty : LayerWF emptyGState := by
  refine ⟨List.nodup_nil, ?_, ?_, ?_⟩
  · intro lid h
    exact absurd h (List.not_mem_nil _)
  · intro i lid h
    exact Option.noConfusion h
  · intro lid l h
    exact Option.noConfusion h

theorem layerWF_of_fields {a b : GState} (h1 : a.layers = b.layers)
    (h2 : a.layerList = b.layerList) (h3 : a.nextLayerId = b.nextLayerId)
    (hwf : LayerWF b) : LayerWF a := by
  unfold LayerWF
  rw [h1, h2, h3]
  exact hwf

theorem pushLayer_LayerWF {g : GState} (hwf : LayerWF g) : LayerWF (pushLayer g) := by
  obtain ⟨hnd, hbd, hpos, hsound⟩ := hwf
  simp only [pushLayer]
  refine ⟨?_, ?_, ?_, ?_⟩
  · rw [List.nodup_append]
    refine ⟨hnd, List.nodup_singleton _, ?_⟩
    intro a ha hb
    rw [List.mem_singleton] at hb
    subst hb
    exact absurd (hbd _ ha) (lt_irrefl _)
  · intro lid hmem
    rw [List.mem_append] at hmem
    rcases hmem with h | h
    · exact Nat.lt_succ_of_lt (hbd lid h)
    · rw [List.mem_singleton] at h
      subst h
      exact Nat.lt_succ_self _
  · intro i lid hget
    by_cases hi : i < g.layerList.length
    · rw [List.get?_append hi] at hget
      obtain ⟨l, h1, h2, h3⟩ := hpos i lid hget
      have hne : lid ≠ g.nextLayerId := Nat.ne_of_lt (hbd lid (List.get?_mem hget))
      exact ⟨l, by rw [aget_aset_ne hne]; exact h1, h2, h3⟩
    · push_neg at hi
      rw [List.get?_append_right hi] at hget
      cases hd : i - g.layerList.length with
      | zero =>
        rw [hd] at hget
        injection hget with hlid
        refine ⟨{ id := g.nextLayerId, index := g.layerList.length, nodes := [] }, ?_, ?_, ?_⟩
        · rw [← hlid]
          exact aget_aset_self ..
        · exact hlid
        · show g.layerList.length = i
          omega
      | succ m =>
        rw [hd] at hget
        simp at hget
  · intro lid l hget
    by_cases he : lid = g.nextLayerId
    · subst he
      exact List.mem_append_right _ (List.mem_singleton_self _)
    · rw [aget_aset_ne he] at hget
      exact List.mem_append_left _ (hsound lid l hget)

theorem pushLayer_iter_LayerWF (n : Nat) {g : GState} (hwf : LayerWF g) :
    LayerWF (pushLayer^[n] g) := by
  induction n generalizing g with
  | zero => exact hwf
  | succ n ih =>
    rw [Function.iterate_succ_apply]
    exact ih (pushLayer_LayerWF hwf)

theorem pushLayer_iter_nextId (n : Nat) (g : GState) :
    (pushLayer^[n] g).nextLayerId = g.nextLayerId + n := by
  induction n generalizing g with
  | zero => rfl
  | succ n ih =>
    rw [Function.iterate_succ_apply, ih]
    simp only [pushLayer]
    omega

theorem pushLayer_iter_layerList (n : Nat) (g : GState) :
    ∃ tail, (pushLayer^[n] g).layerList = g.layerList ++ tail := by
  induction n generalizing g with
  | zero => exact ⟨[], by rw [List.append_nil]; rfl⟩
  | succ n ih =>
    rw [Function.iterate_succ_apply]
    obtain ⟨tail, htail⟩ := ih (pushLayer g)
    exact ⟨g.nextLayerId :: tail, by rw [htail]; simp [pushLayer]⟩

theorem pushLayer_iter_aget (n : Nat) {g : GState} {lid : Nat} (hlt : lid < g.nextLayerId) :
    aget (pushLayer^[n] g).layers lid = aget g.layers lid := by
  induction n generalizing g with
  | zero => rfl
  | succ n ih =>
    rw [Function.iterate_succ_apply]
    have h1 : aget (pushLayer^[n] (pushLayer g)).layers lid = aget (pushLayer g).layers lid := by
      apply ih
      simp only [pushLayer]
      omega
    rw [h1]
    simp only [pushLayer]
    exact aget_aset_ne (Nat.ne_of_lt hlt)

theorem get?_lt_length {α : Type} {l : List α} {n : Nat} {a : α} (h : l.get? n = some a) :
    n < l.length := by
  by_contra hn
  rw [List.get?_eq_none.mpr (by omega)] at h
  exact Option.noConfusion h

theorem nodup_pos_inj {l : List Nat} (hnd : l.Nodup) {i j a : Nat}
    (hi : l.get? i = some a) (hj : l.get? j = some a) : i = j :=
  List.get?_inj (get?_lt_length hi) hnd (hi.trans hj.symm)

theorem mem_eraseIdx_of_get?_ne {l : List Nat} {p q lid : Nat}
    (hq : l.get? q = some lid) (hp : p < l.length) (hne : q ≠ p) : lid ∈ l.eraseIdx p := by
  rcases lt_or_gt_of_ne hne with hlt | hgt
  · exact List.get?_mem (by rw [get?_eraseIdx_lt _ _ _ hlt]; exact hq)
  · have h1 : (l.eraseIdx p).get? (q - 1) = some lid := by
      rw [get?_eraseIdx_ge _ _ _ hp (by omega)]
      rw [show q - 1 + 1 = q by omega]
      exact hq
    exact List.get?_mem h1

/-- The stored record of any layer id sits at its `index` position of
`layerList` and carries its key as `id`. -/
theorem layerWF_pos_of_aget {g : GState} (hwf : LayerWF g) {lid : Nat} {l : Layer}
    (h : aget g.layers lid = some l) :
    g.layerList.get? l.index = some lid ∧ l.id = lid := by
  obtain ⟨hnd, _, hpos, hsound⟩ := hwf
  obtain ⟨j, hj⟩ := List.get?_of_mem (hsound lid l h)
  obtain ⟨l2, h1, h2, h3⟩ := hpos j lid hj
  rw [h] at h1
  injection h1 with h4
  rw [← h4] at h2 h3
  rw [h3]
  exact ⟨hj, h2⟩

theorem layerLookup_some {g0 : GState} {ni : Int} {g2 : GState} {nl : Layer}
    (h : layerLookup g0 ni = (g2, some nl)) :
    g2 = g0 ∧ ∃ nlid, listGetWrap g0.layerList ni = some nlid ∧ aget g0.layers nlid = some nl := by
  unfold layerLookup at h
  cases hg : listGetWrap g0.layerList ni with
  | none =>
    rw [hg] at h
    injection h with h1 h2
    exact absurd h2 (by simp)
  | some lid =>
    rw [hg] at h
    injection h with h1 h2
    exact ⟨h1.symm, lid, rfl, h2⟩

/-- The effect of the renumbering loop: ids outside the walked suffix keep
their records, ids at position `j` of the suffix get `index := i0 + j`. -/
theorem renumberList_spec :
    ∀ (lids : List Nat) (i0 : Nat) (layers : AMap Nat Layer),
      lids.Nodup →
      (∀ j lid, lids.get? j = some lid → ∃ l, aget layers lid = some l ∧ l.id = lid) →
      (∀ lid, lid ∉ lids → aget (renumberList lids i0 layers) lid = aget layers lid) ∧
      (∀ j lid, lids.get? j = some lid →
        ∃ l, aget (renumberList lids i0 layers) lid = some l ∧ l.id = lid ∧ l.index = i0 + j) := by
  intro lids
  induction lids with
  | nil =>
    intro i0 layers _ _
    exact ⟨fun _ _ => rfl, fun j lid h => Option.noConfusion h⟩
  | cons lid0 rest ih =>
    intro i0 layers hnd hids
    obtain ⟨l0, hl0, hid0⟩ := hids 0 lid0 rfl
    have hred : renumberList (lid0 :: rest) i0 layers =
        renumberList rest (i0 + 1) (aset layers lid0 { l0 with index := i0 }) := by
      simp only [renumberList, hl0]
    have hnotmem : lid0 ∉ rest := (List.nodup_cons.mp hnd).1
    have hndr : rest.Nodup := (List.nodup_cons.mp hnd).2
    have hidsr : ∀ j lid, rest.get? j = some lid →
        ∃ l, aget (aset layers lid0 { l0 with index := i0 }) lid = some l ∧ l.id = lid := by
      intro j lid h
      obtain ⟨l, h1, h2⟩ := hids (j + 1) lid h
      have hne : lid ≠ lid0 := fun he => hnotmem (he ▸ List.get?_mem h)
      exact ⟨l, by rw [aget_aset_ne hne]; exact h1, h2⟩
    obtain ⟨hskip, hhit⟩ := ih (i0 + 1) _ hndr hidsr
    rw [hred]
    constructor
    · intro lid hmem
      have hne0 : lid ≠ lid0 := fun he => hmem (he ▸ List.mem_cons_self _ _)
      have hner : lid ∉ rest := fun hr => hmem (List.mem_cons_of_mem _ hr)
      rw [hskip lid hner, aget_aset_ne hne0]
    · intro j lid h
      cases j with
      | zero =>
        injection h with h2
        subst h2
        refine ⟨{ l0 with index := i0 }, ?_, ?_, ?_⟩
        · rw [hskip _ hnotmem]
          exact aget_aset_self ..
        · exact hid0
        · show i0 = i0 + 0
          omega
      | succ j =>
        obtain ⟨l, h1, h2, h3⟩ := hhit j lid h
        exact ⟨l, h1, h2, by omega⟩

/-- `_moveNodeLayer` preserves layer-table well-formedness: the target
layer keeps its id and index, and when the emptied source layer is deleted
the renumbering loop restores position–index agreement. -/
theorem moveNodeLayer_LayerWF {g : GState} {id : String} {ni : Int} {g' : GState}
    (hwf : LayerWF g) (h : moveNodeLayer g id ni = .ok g') : LayerWF g' := by
  unfold moveNodeLayer at h
  cases hlb : layerByIndex g ni with
  | mk g2 nlo =>
    have hfst := layerByIndex_fst g ni
    rw [hlb] at hfst
    dsimp only at hfst
    have hwf2 : LayerWF g2 := by
      rw [hfst]
      exact pushLayer_iter_LayerWF _ hwf
    simp only [hlb] at h
    cases holb : (aget g.layerMap id).bind (aget g.layers) with
    | none =>
      simp only [holb] at h
      exact Except.noConfusion h
    | some ol =>
      simp only [holb] at h
      cases nlo with
      | none => exact Except.noConfusion h
      | some nl =>
        dsimp only at h
        have hlb2 : layerLookup (pushLayer^[(ni + 1 - (g.layerList.length : Int)).toNat] g) ni
            = (g2, some nl) := hlb
        obtain ⟨hg2eq, nlid, hwrap, hnlP⟩ := layerLookup_some hlb2
        have hnl : aget g2.layers nlid = some nl := by
          rw [hg2eq]
          exact hnlP
        obtain ⟨hnlpos, hnlid⟩ := layerWF_pos_of_aget hwf2 hnl
        obtain ⟨olid, holm, holg⟩ := Option.bind_eq_some.mp holb
        have holid_lt : olid < g.nextLayerId := hwf.2.1 olid (hwf.2.2.2 olid ol holg)
        have hol2 : aget g2.layers olid = some ol := by
          rw [hg2eq, pushLayer_iter_aget _ holid_lt]
          exact holg
        obtain ⟨holpos2, holid2⟩ := layerWF_pos_of_aget hwf2 hol2
        obtain ⟨hnd2, hbd2, hpos2, hsnd2⟩ := hwf2
        by_cases hc : (sdel ol.nodes id).length = 0
        · -- the source layer empties: delete + renumber
          rw [if_pos hc] at h
          injection h with hg'
          rw [← hg']
          have hplen : ol.index < g2.layerList.length := get?_lt_length holpos2
          have hLnd : (g2.layerList.eraseIdx ol.index).Nodup :=
            (List.eraseIdx_sublist _ _).nodup hnd2
          have hdnd : ((g2.layerList.eraseIdx ol.index).drop ol.index).Nodup :=
            (List.drop_sublist _ _).nodup hLnd
          have hbase : ∀ j lid,
              ((g2.layerList.eraseIdx ol.index).drop ol.index).get? j = some lid →
              ∃ l, aget (adel (aset g2.layers nl.id
                { id := nl.id, index := nl.index, nodes := sadd nl.nodes id }) ol.id) lid
                  = some l ∧ l.id = lid := by
            intro j lid hj
            rw [List.get?_drop] at hj
            have hj2 : g2.layerList.get? (ol.index + j + 1) = some lid := by
              rw [← get?_eraseIdx_ge g2.layerList ol.index (ol.index + j) hplen (by omega)]
              exact hj
            have hneo : lid ≠ ol.id := by
              intro he
              have heq := nodup_pos_inj hnd2 hj2 (by rw [he, holid2]; exact holpos2)
              omega
            rw [aget_adel_ne hneo]
            by_cases henl : lid = nl.id
            · rw [henl]
              exact ⟨{ id := nl.id, index := nl.index, nodes := sadd nl.nodes id },
                aget_aset_self .., rfl⟩
            · obtain ⟨l2, h1, h2, _⟩ := hpos2 _ _ hj2
              exact ⟨l2, by rw [aget_aset_ne henl]; exact h1, h2⟩
          obtain ⟨hskip, hhit⟩ := renumberList_spec _ ol.index _ hdnd hbase
          unfold LayerWF
          refine ⟨?_, ?_, ?_, ?_⟩
          · exact hLnd
          · intro lid hmem
            exact hbd2 lid ((List.eraseIdx_sublist _ _).subset hmem)
          · intro i lid hget
            by_cases hip : i < ol.index
            · have hg2get : g2.layerList.get? i = some lid := by
                rw [← get?_eraseIdx_lt g2.layerList ol.index i hip]
                exact hget
              have hnin : lid ∉ (g2.layerList.eraseIdx ol.index).drop ol.index := by
                intro hmem
                obtain ⟨j, hj⟩ := List.get?_of_mem hmem
                rw [List.get?_drop] at hj
                have := nodup_pos_inj hLnd hget hj
                omega
              rw [hskip lid hnin]
              have hneo : lid ≠ ol.id := by
                intro he
                have := nodup_pos_inj hnd2 hg2get (by rw [he, holid2]; exact holpos2)
                omega
              rw [aget_adel_ne hneo]
              by_cases henl : lid = nl.id
              · have hin : i = nl.index :=
                  nodup_pos_inj hnd2 hg2get (by rw [henl, hnlid]; exact hnlpos)
                refine ⟨{ id := nl.id, index := nl.index, nodes := sadd nl.nodes id },
                  ?_, ?_, ?_⟩
                · rw [henl]
                  exact aget_aset_self ..
                · exact henl.symm
                · exact hin.symm
              · obtain ⟨l2, h1, h2, h3⟩ := hpos2 i lid hg2get
                exact ⟨l2, by rw [aget_aset_ne henl]; exact h1, h2, h3⟩
            · push_neg at hip
              have hj : ((g2.layerList.eraseIdx ol.index).drop ol.index).get? (i - ol.index)
                  = some lid := by
                rw [List.get?_drop, show ol.index + (i - ol.index) = i by omega]
                exact hget
              obtain ⟨l2, h1, h2, h3⟩ := hhit (i - ol.index) lid hj
              exact ⟨l2, h1, h2, by omega⟩
          · intro lid l hget
            by_cases hmem : lid ∈ (g2.layerList.eraseIdx ol.index).drop ol.index
            · exact (List.drop_sublist _ _).subset hmem
            · rw [hskip lid hmem] at hget
              have hneo : lid ≠ ol.id := by
                intro he
                rw [he, aget_adel_self] at hget
                exact Option.noConfusion hget
              rw [aget_adel_ne hneo] at hget
              by_cases henl : lid = nl.id
              · have hnp : nl.index ≠ ol.index := by
                  intro he
                  have h5 : g2.layerList.get? ol.index = some nlid := by
                    rw [← he]
                    exact hnlpos
                  rw [holpos2] at h5
                  injection h5 with h6
                  exact hneo (by rw [henl, hnlid, ← h6, ← holid2])
                exact mem_eraseIdx_of_get?_ne (by rw [henl, hnlid]; exact hnlpos) hplen hnp
              · rw [aget_aset_ne henl] at hget
                obtain ⟨q, hq⟩ := List.get?_of_mem (hsnd2 lid l hget)
                have hnq : q ≠ ol.index := by
                  intro he
                  rw [he, holpos2] at hq
                  injection hq with h6
                  exact hneo ((holid2.trans h6).symm)
                exact mem_eraseIdx_of_get?_ne hq hplen hnq
        · -- the source layer stays
          rw [if_neg hc] at h
          injection h with hg'
          rw [← hg']
          unfold LayerWF
          refine ⟨?_, ?_, ?_, ?_⟩
          · exact hnd2
          · exact hbd2
          · intro i lid hget
            by_cases heol : lid = ol.id
            · have hipos : i = ol.index :=
                nodup_pos_inj hnd2 hget (by rw [heol, holid2]; exact holpos2)
              refine ⟨{ id := ol.id, index := ol.index, nodes := sdel ol.nodes id }, ?_, ?_, ?_⟩
              · rw [heol]
                exact aget_aset_self ..
              · exact heol.symm
              · exact hipos.symm
            · by_cases henl : lid = nl.id
              · have hipos : i = nl.index :=
                  nodup_pos_inj hnd2 hget (by rw [henl, hnlid]; exact hnlpos)
                refine ⟨{ id := nl.id, index := nl.index, nodes := sadd nl.nodes id },
                  ?_, ?_, ?_⟩
                · rw [aget_aset_ne heol, henl]
                  exact aget_aset_self ..
                · exact henl.symm
                · exact hipos.symm
              · obtain ⟨l2, h1, h2, h3⟩ := hpos2 i lid hget
                exact ⟨l2, by rw [aget_aset_ne heol, aget_aset_ne henl]; exact h1, h2, h3⟩
          · intro lid l hget
            by_cases heol : lid = ol.id
            · rw [heol, holid2]
              exact List.get?_mem holpos2
            · by_cases henl : lid = nl.id
              · rw [henl, hnlid]
                exact List.get?_mem hnlpos
              · rw [aget_aset_ne heol, aget_aset_ne henl] at hget
                exact hsnd2 lid l hget

/-- Re-storing a fetched layer with the same id and index (only its node
set changed) preserves well-formedness. -/
theorem layerWF_set_nodes {g : GState} (hwf : LayerWF g) {lid : Nat} {l : Layer}
    (hget : aget g.layers lid = some l) (ns : SSet) :
    LayerWF { g with layers := aset g.layers l.id { id := l.id, index := l.index, nodes := ns } } := by
  obtain ⟨hpos0, hid0⟩ := layerWF_pos_of_aget hwf hget
  obtain ⟨hnd, hbd, hpos, hsnd⟩ := hwf
  unfold LayerWF
  refine ⟨hnd, hbd, ?_, ?_⟩
  · intro i lid2 hg
    by_cases he : lid2 = l.id
    · have hip : i = l.index :=
        nodup_pos_inj hnd hg (by rw [he, hid0]; exact hpos0)
      refine ⟨{ id := l.id, index := l.index, nodes := ns }, ?_, ?_, ?_⟩
      · rw [he]
        exact aget_aset_self ..
      · exact he.symm
      · exact hip.symm
    · obtain ⟨l2, a1, a2, a3⟩ := hpos i lid2 hg
      exact ⟨l2, by rw [aget_aset_ne he]; exact a1, a2, a3⟩
  · intro lid2 l2 hg
    by_cases he : lid2 = l.id
    · rw [he, hid0]
      exact List.get?_mem hpos0
    · rw [aget_aset_ne he] at hg
      exact hsnd _ _ hg

theorem addNodesLoop_layerFields (lid : Nat) :
    ∀ (ns : List Node) (g : GState) (s : SSet),
      (addNodesLoop lid ns g s).1.layers = g.layers ∧
      (addNodesLoop lid ns g s).1.layerList = g.layerList ∧
      (addNodesLoop lid ns g s).1.nextLayerId = g.nextLayerId := by
  intro ns
  induction ns with
  | nil => intro g s; exact ⟨rfl, rfl, rfl⟩
  | cons n t ih => intro g s; exact ih _ _

theorem removeNodesLoop_LayerWF :
    ∀ (ns : List Node) (g : GState) (ex : List Edge) {g' : GState} {ex' : List Edge},
      removeNodesLoop ns g ex = .ok (g', ex') → LayerWF g → LayerWF g' := by
  intro ns
  induction ns with
  | nil =>
    intro g ex g' ex' h hwf
    injection h with h2
    injection h2 with h3 h4
    rw [← h3]
    exact hwf
  | cons n t ih =>
    intro g ex g' ex' h hwf
    unfold removeNodesLoop at h
    cases hly : (aget g.layerMap n.id).bind (aget g.layers) with
    | none =>
      simp only [hly] at h
      exact Except.noConfusion h
    | some l =>
      simp only [hly] at h
      apply ih _ _ h
      obtain ⟨lid, hmap, hlay⟩ := Option.bind_eq_some.mp hly
      exact layerWF_of_fields rfl rfl rfl (layerWF_set_nodes hwf hlay _)

theorem addEdgesLoop_layerFields :
    ∀ (es : List Edge) (g : GState) {g' : GState}, addEdgesLoop es g = .ok g' →
      g'.layers = g.layers ∧ g'.layerList = g.layerList ∧ g'.nextLayerId = g.nextLayerId := by
  intro es
  induction es with
  | nil =>
    intro g g' h
    injection h with h2
    rw [← h2]
    exact ⟨rfl, rfl, rfl⟩
  | cons e t ih =>
    intro g g' h
    unfold addEdgesLoop at h
    dsimp only at h
    split at h
    · exact Except.noConfusion h
    · split at h
      · exact Except.noConfusion h
      · have hrec := ih _ h
        exact ⟨hrec.1, hrec.2.1, hrec.2.2⟩

theorem removeEdgesLoop_layerFields :
    ∀ (es : List Edge) (g : GState),
      (removeEdgesLoop es g).layers = g.layers ∧
      (removeEdgesLoop es g).layerList = g.layerList ∧
      (removeEdgesLoop es g).nextLayerId = g.nextLayerId := by
  intro es
  induction es with
  | nil => intro g; exact ⟨rfl, rfl, rfl⟩
  | cons e t ih =>
    intro g
    unfold removeEdgesLoop
    dsimp only
    repeat' split
    all_goals exact ih _

theorem applyNodePhases_LayerWF {g : GState} {c : Changes} {gA : GState} {ra : List Edge}
    (h : applyNodePhases g c = .ok (gA, ra)) (hwf : LayerWF g) : LayerWF gA := by
  unfold applyNodePhases at h
  cases hlb : layerByIndex g 0 with
  | mk g0 lo =>
    have hfst := layerByIndex_fst g 0
    rw [hlb] at hfst
    dsimp only at hfst
    have hwf0 : LayerWF g0 := by
      rw [hfst]
      exact pushLayer_iter_LayerWF _ hwf
    simp only [hlb] at h
    cases lo with
    | none => exact Except.noConfusion h
    | some layer =>
      have hlb2 : layerLookup (pushLayer^[((0 : Int) + 1 - (g.layerList.length : Int)).toNat] g) 0
          = (g0, some layer) := hlb
      obtain ⟨hg0eq, lid0, hwrap, hlayP⟩ := layerLookup_some hlb2
      have hlay : aget g0.layers lid0 = some layer := by
        rw [hg0eq]
        exact hlayP
      unfold applyNodePhasesAux at h
      apply removeNodesLoop_LayerWF _ _ _ h
      have hf := addNodesLoop_layerFields layer.id c.addedNodes g0 layer.nodes
      have hwfP : LayerWF (addNodesLoop layer.id c.addedNodes g0 layer.nodes).1 :=
        layerWF_of_fields hf.1 hf.2.1 hf.2.2 hwf0
      have hlayP2 : aget (addNodesLoop layer.id c.addedNodes g0 layer.nodes).1.layers lid0
          = some layer := by
        rw [hf.1]
        exact hlay
      exact layerWF_of_fields rfl rfl rfl (layerWF_set_nodes hwfP hlayP2 _)

theorem applyChanges_LayerWF {g : GState} {c : Changes} {g1 : GState} {ra : List Edge}
    (h : applyChanges g c = .ok (g1, ra)) (hwf : LayerWF g) : LayerWF g1 := by
  unfold applyChanges at h
  split at h
  · exact Except.noConfusion h
  · rename_i gA removedAll hnp
    split at h
    · exact Except.noConfusion h
    · rename_i gB hadd
      injection h with h2
      injection h2 with h3 h4
      rw [← h3]
      have hwfA : LayerWF gA := applyNodePhases_LayerWF hnp hwf
      obtain ⟨f1, f2, f3⟩ := addEdgesLoop_layerFields _ _ hadd
      have hwfB : LayerWF gB := layerWF_of_fields f1 f2 f3 hwfA
      obtain ⟨e1, e2, e3⟩ := removeEdgesLoop_layerFields removedAll gB
      exact layerWF_of_fields e1 e2 e3 hwfB

theorem phase1_LayerWF :
    ∀ (fuel : Nat) (g : GState) (stack : List String) (ph2 : SSet) {g' : GState} {ph2' : SSet},
      phase1 fuel g stack ph2 = .ok (g', ph2') → LayerWF g → LayerWF g' := by
  intro fuel
  induction fuel with
  | zero =>
    intro g stack ph2 g' ph2' h _
    unfold phase1 at h
    exact Except.noConfusion h
  | succ fuel ih =>
    intro g stack ph2 g' ph2' h hwf
    unfold phase1 at h
    cases hl : stack.getLast? with
    | none =>
      simp only [hl] at h
      injection h with h2
      injection h2 with h3 h4
      rw [← h3]
      exact hwf
    | some id =>
      simp only [hl] at h
      split at h
      · exact Except.noConfusion h
      · split at h
        · exact Except.noConfusion h
        · split at h
          · split at h
            · exact ih _ _ _ h hwf
            · split at h
              · exact Except.noConfusion h
              · rename_i g3 hmv
                exact ih _ _ _ h (moveNodeLayer_LayerWF hwf hmv)
          · split at h
            · exact ih _ _ _ h hwf
            · split at h
              · exact Except.noConfusion h
              · rename_i g3 hmv
                exact ih _ _ _ h (moveNodeLayer_LayerWF hwf hmv)

theorem phase2Bucket_LayerWF :
    ∀ (fuel : Nat) (g : GState) (byLayer : AMap Nat SSet) (lid curLayer pos : Nat)
      {g' : GState} {byLayer' : AMap Nat SSet},
      phase2Bucket fuel g byLayer lid curLayer pos = .ok (g', byLayer') →
      LayerWF g → LayerWF g' := by
  intro fuel
  induction fuel with
  | zero =>
    intro g byLayer lid curLayer pos g' byLayer' h _
    unfold phase2Bucket at h
    exact Except.noConfusion h
  | succ fuel ih =>
    intro g byLayer lid curLayer pos g' byLayer' h hwf
    unfold phase2Bucket at h
    cases hg : ((aget byLayer lid).getD []).get? pos with
    | none =>
      simp only [hg] at h
      injection h with h2
      injection h2 with h3 h4
      rw [← h3]
      exact hwf
    | some id =>
      simp only [hg] at h
      split at h
      · exact ih _ _ _ _ _ h hwf
      · split at h
        · exact Except.noConfusion h
        · split at h
          · exact ih _ _ _ _ _ h hwf
          · split at h
            · exact Except.noConfusion h
            · rename_i g3 hmv
              exact ih _ _ _ _ _ h (moveNodeLayer_LayerWF hwf hmv)

theorem phase2Go_LayerWF :
    ∀ (fuel : Nat) (g : GState) (byLayer : AMap Nat SSet) (lids : List Nat) {g' : GState},
      phase2Go fuel g byLayer lids = .ok g' → LayerWF g → LayerWF g' := by
  intro fuel
  induction fuel with
  | zero =>
    intro g byLayer lids g' h _
    unfold phase2Go at h
    exact Except.noConfusion h
  | succ fuel ih =>
    intro g byLayer lids g' h hwf
    unfold phase2Go at h
    cases lids with
    | nil =>
      injection h with h2
      rw [← h2]
      exact hwf
    | cons lid rest =>
      cases hgl : aget g.layers lid with
      | none =>
        simp only [hgl] at h
        exact Except.noConfusion h
      | some l =>
        simp only [hgl] at h
        split at h
        · exact Except.noConfusion h
        · rename_i g2 byLayer2 hb
          exact ih _ _ _ h (phase2Bucket_LayerWF _ _ _ _ _ _ hb hwf)

theorem updateLayers_LayerWF {g : GState} {dirty : SSet} {g' : GState}
    (h : updateLayers g dirty = .ok g') (hwf : LayerWF g) : LayerWF g' := by
  unfold updateLayers at h
  split at h
  · exact Except.noConfusion h
  · rename_i g1 ph2 hp
    exact phase2Go_LayerWF _ _ _ _ h (phase1_LayerWF _ _ _ _ hp hwf)

/-- In a well-formed layer table the indices read along `layerList` are
exactly `0, …, L−1`. -/
theorem layerWF_map_range {g : GState} (hwf : LayerWF g) :
    g.layerList.map (fun lid => ((aget g.layers lid).map Layer.index).getD 0)
      = List.range g.layerList.length := by
  obtain ⟨_, _, hpos, _⟩ := hwf
  apply List.ext_get?
  intro n
  rw [List.get?_map]
  by_cases hn : n < g.layerList.length
  · cases hg : g.layerList.get? n with
    | none =>
      exfalso
      rw [List.get?_eq_none] at hg
      omega
    | some lid =>
      obtain ⟨l, h1, _, h3⟩ := hpos n lid hg
      rw [List.get?_range hn]
      simp only [Option.map_some', h1, Option.getD_some]
      rw [h3]
  · rw [List.get?_eq_none.mpr (by omega)]
    rw [List.get?_eq_none.mpr (by rw [List.length_range]; omega)]
    rfl

/-- C4 (amended): committing any batch onto a graph with a well-formed
layer table yields a well-formed layer table, so the set of `index` values
of the layers along `layerList` is exactly `{0, …, L−1}` — the contiguity
half of the claim holds.  The no-empty-layer half is false: a commit can
leave an emptied layer in `layerList` (`C4_counterexample`). -/
theorem C4_layer_contiguity (g : GState) (c : Changes) (gf : GState)
    (hwf : LayerWF g) (h : runUpdate g c = .ok gf) :
    LayerWF gf ∧
    gf.layerList.map (fun lid => ((aget gf.layers lid).map Layer.index).getD 0)
      = List.range gf.layerList.length := by
  have hwfF : LayerWF gf := by
    unfold runUpdate at h
    split at h
    · exact Except.noConfusion h
    · rename_i g1 removedAll happ
      split at h
      · exact Except.noConfusion h
      · exact updateLayers_LayerWF h (applyChanges_LayerWF happ hwf)
  exact ⟨hwfF, layerWF_map_range hwfF⟩

/-- Witness for `C4_layer_contiguity`: the one-node commit. -/
theorem C4_layer_contiguity_witness :
    LayerWF (okState solePre) ∧
    (okState solePre).layerList.map
      (fun lid => ((aget (okState solePre).layers lid).map Layer.index).getD 0)
      = List.range (okState solePre).layerList.length :=
  C4_layer_contiguity emptyGState { addedNodes := [mkNode "n1"] } (okState solePre)
    layerWF_empty rfl

/-! ### Nodes parked at layer 0 -/

theorem mem_sadd_self (s : SSet) (x : String) : x ∈ sadd s x := by
  unfold sadd
  by_cases hc : s.contains x
  · rw [if_pos hc]
    exact List.mem_of_elem_eq_true hc
  · rw [if_neg hc]
    exact List.mem_append_right _ (List.mem_singleton_self _)

theorem mem_sadd_of_mem {s : SSet} {x : String} (y : String) (h : x ∈ s) : x ∈ sadd s y := by
  unfold sadd
  split
  · exact h
  · exact List.mem_append_left _ h

theorem mem_sdel_of_ne {s : SSet} {x y : String} (h : x ∈ s) (hne : x ≠ y) : x ∈ sdel s y :=
  List.mem_filter.mpr ⟨h, by simp [hne]⟩

theorem sdel_ne_nil_of_mem {s : SSet} {x y : String} (h : x ∈ s) (hne : x ≠ y) :
    (sdel s y).length ≠ 0 := by
  intro hlen
  rw [List.length_eq_zero] at hlen
  have := mem_sdel_of_ne h hne
  rw [hlen] at this
  exact List.not_mem_nil _ this

theorem atZero_of_fields {a b : GState} (h1 : a.layerMap = b.layerMap)
    (h2 : a.layers = b.layers) {id : String} (hz : AtZero b id) : AtZero a id := by
  unfold AtZero
  rw [h1, h2]
  exact hz

theorem predNodes_core {a b : GState} (h : SameCore a b) (x : String) :
    predNodes a x = predNodes b x := by
  unfold predNodes predIds getEdgeG
  rw [h.2.1, h.2.2.1]

theorem renumberList_skip :
    ∀ (lids : List Nat) (i0 : Nat) (layers : AMap Nat Layer) (lid : Nat),
      lid ∉ lids → aget (renumberList lids i0 layers) lid = aget layers lid := by
  intro lids
  induction lids with
  | nil =>
    intro i0 layers lid _
    rfl
  | cons lid0 rest ih =>
    intro i0 layers lid hmem
    have hne : lid ≠ lid0 := fun he => hmem (he ▸ List.mem_cons_self _ _)
    have hner : lid ∉ rest := fun hr => hmem (List.mem_cons_of_mem _ hr)
    unfold renumberList
    cases h0 : aget layers lid0 with
    | none =>
      exact ih _ _ _ hner
    | some l0 =>
      rw [ih _ _ _ hner, aget_aset_ne hne]

theorem atZero_pushLayer {g : GState} {id : String} (hwf : LayerWF g) (hz : AtZero g id) :
    AtZero (pushLayer g) id := by
  obtain ⟨lid, l, hm, hl, hi, hmem⟩ := hz
  have hlt : lid < g.nextLayerId := hwf.2.1 lid (hwf.2.2.2 lid l hl)
  refine ⟨lid, l, hm, ?_, hi, hmem⟩
  show aget (aset g.layers g.nextLayerId _) lid = some l
  rw [aget_aset_ne (Nat.ne_of_lt hlt)]
  exact hl

theorem atZero_pushLayer_iter (n : Nat) {g : GState} {id : String} (hwf : LayerWF g)
    (hz : AtZero g id) : AtZero (pushLayer^[n] g) id := by
  induction n generalizing g with
  | zero => exact hz
  | succ n ih =>
    rw [Function.iterate_succ_apply]
    exact ih (pushLayer_LayerWF hwf) (atZero_pushLayer hwf hz)

/-- Moving a *different* node never disturbs a node parked in a layer of
index 0: that layer keeps its id and index, cannot empty (it still holds
the parked node), and the post-deletion renumbering never reaches position
0. -/
theorem atZero_moveNodeLayer {g g' : GState} {id id' : String} {ni : Int}
    (hwf : LayerWF g) (hz : AtZero g id) (hne : id' ≠ id)
    (h : moveNodeLayer g id' ni = .ok g') : AtZero g' id := by
  unfold moveNodeLayer at h
  cases hlb : layerByIndex g ni with
  | mk g2 nlo =>
    have hfst := layerByIndex_fst g ni
    rw [hlb] at hfst
    dsimp only at hfst
    have hwf2 : LayerWF g2 := by
      rw [hfst]
      exact pushLayer_iter_LayerWF _ hwf
    have hz2 : AtZero g2 id := by
      rw [hfst]
      exact atZero_pushLayer_iter _ hwf hz
    simp only [hlb] at h
    cases holb : (aget g.layerMap id').bind (aget g.layers) with
    | none =>
      simp only [holb] at h
      exact Except.noConfusion h
    | some ol =>
      simp only [holb] at h
      cases nlo with
      | none => exact Except.noConfusion h
      | some nl =>
        dsimp only at h
        have hlb2 : layerLookup (pushLayer^[(ni + 1 - (g.layerList.length : Int)).toNat] g) ni
            = (g2, some nl) := hlb
        obtain ⟨hg2eq, nlid, hwrap, hnlP⟩ := layerLookup_some hlb2
        have hnl : aget g2.layers nlid = some nl := by
          rw [hg2eq]
          exact hnlP
        obtain ⟨hnlpos, hnlid⟩ := layerWF_pos_of_aget hwf2 hnl
        obtain ⟨olid, holm, holg⟩ := Option.bind_eq_some.mp holb
        have holid_lt : olid < g.nextLayerId := hwf.2.1 olid (hwf.2.2.2 olid ol holg)
        have hol2 : aget g2.layers olid = some ol := by
          rw [hg2eq, pushLayer_iter_aget _ holid_lt]
          exact holg
        obtain ⟨holpos2, holid2⟩ := layerWF_pos_of_aget hwf2 hol2
        have hnd2 := hwf2.1
        obtain ⟨lid, l, hm2, hl2, hi2, hmem2⟩ := hz2
        obtain ⟨hlpos, hlid⟩ := layerWF_pos_of_aget hwf2 hl2
        rw [hi2] at hlpos
        have hm3 : aget (aset g2.layerMap id' nl.id) id = some lid := by
          rw [aget_aset_ne (Ne.symm hne)]
          exact hm2
        have hA : ∃ l', aget (aset g2.layers nl.id
            { id := nl.id, index := nl.index, nodes := sadd nl.nodes id' }) lid = some l' ∧
            l'.index = 0 ∧ id ∈ l'.nodes := by
          by_cases heq : lid = nl.id
          · have hlnl : l = nl := by
              have h5 : aget g2.layers nl.id = some nl := by
                rw [hnlid]
                exact hnl
              rw [heq, h5] at hl2
              injection hl2 with h6
              exact h6.symm
            refine ⟨{ id := nl.id, index := nl.index, nodes := sadd nl.nodes id' }, ?_, ?_, ?_⟩
            · rw [heq]
              exact aget_aset_self ..
            · show nl.index = 0
              rw [← hlnl]
              exact hi2
            · exact mem_sadd_of_mem _ (hlnl ▸ hmem2)
          · exact ⟨l, by rw [aget_aset_ne heq]; exact hl2, hi2, hmem2⟩
        obtain ⟨l', hAl, hAi, hAm⟩ := hA
        by_cases hc : (sdel ol.nodes id').length = 0
        · -- the emptied-source branch: the source layer cannot be ours
          rw [if_pos hc] at h
          injection h with hg'
          rw [← hg']
          have hoe : ol.id ≠ lid := by
            intro holeq
            have hoo : olid = lid := holid2 ▸ holeq
            rw [hoo, hl2] at hol2
            injection hol2 with h6
            have hmemo : id ∈ ol.nodes := h6 ▸ hmem2
            exact sdel_ne_nil_of_mem hmemo (Ne.symm hne) hc
          have hp0 : ol.index ≠ 0 := by
            intro hp
            rw [hp] at holpos2
            rw [hlpos] at holpos2
            injection holpos2 with h6
            exact hoe (holid2.trans h6.symm)
          have hnin : lid ∉ (g2.layerList.eraseIdx ol.index).drop ol.index := by
            intro hmem
            obtain ⟨j, hj⟩ := List.get?_of_mem hmem
            rw [List.get?_drop] at hj
            have hL0 : (g2.layerList.eraseIdx ol.index).get? 0 = some lid := by
              rw [get?_eraseIdx_lt _ _ _ (by omega)]
              exact hlpos
            have hLnd : (g2.layerList.eraseIdx ol.index).Nodup :=
              (List.eraseIdx_sublist _ _).nodup hnd2
            have := nodup_pos_inj hLnd hL0 hj
            omega
          refine ⟨lid, l', hm3, ?_, hAi, hAm⟩
          show aget (renumberList _ _ _) lid = some l'
          rw [renumberList_skip _ _ _ _ hnin, aget_adel_ne (Ne.symm hoe)]
          exact hAl
        · rw [if_neg hc] at h
          injection h with hg'
          rw [← hg']
          by_cases holeq : ol.id = lid
          · have hoo : olid = lid := holid2 ▸ holeq
            have holl : ol = l := by
              rw [hoo, hl2] at hol2
              injection hol2 with h6
              exact h6.symm
            refine ⟨lid, { id := ol.id, index := ol.index, nodes := sdel ol.nodes id' },
              hm3, ?_, ?_, ?_⟩
            · show aget (aset _ ol.id _) lid = _
              rw [holeq]
              exact aget_aset_self ..
            · show ol.index = 0
              rw [holl]
              exact hi2
            · exact mem_sdel_of_ne (holl ▸ hmem2) (Ne.symm hne)
          · refine ⟨lid, l', hm3, ?_, hAi, hAm⟩
            show aget (aset _ ol.id _) lid = _
            rw [aget_aset_ne (Ne.symm holeq)]
            exact hAl

/-- Phase 1 never moves a node that has no parents and no children and
already sits at layer 0. -/
theorem phase1_atZero :
    ∀ (fuel : Nat) (g : GState) (stack : List String) (ph2 : SSet) {g' : GState} {ph2' : SSet}
      {id : String},
      phase1 fuel g stack ph2 = .ok (g', ph2') → LayerWF g → AtZero g id →
      predNodes g id = [] → succNodes g id = [] → AtZero g' id := by
  intro fuel
  induction fuel with
  | zero =>
    intro g stack ph2 g' ph2' id h _ _ _ _
    unfold phase1 at h
    exact Except.noConfusion h
  | succ fuel ih =>
    intro g stack ph2 g' ph2' id h hwf hz hpred hsucc
    unfold phase1 at h
    cases hl : stack.getLast? with
    | none =>
      simp only [hl] at h
      injection h with h2
      injection h2 with h3 h4
      rw [← h3]
      exact hz
    | some pid =>
      simp only [hl] at h
      by_cases hid : pid = id
      · subst hid
        have hzc := hz
        obtain ⟨lid, l, hm, hl2, hi, hmem⟩ := hzc
        have hcur : layerOfE g pid = .ok 0 := by
          simp only [layerOfE, hm, hl2, hi]
        simp only [hpred, List.mapM_nil, hcur, List.isEmpty_nil, if_true] at h
        simp only [pure, Except.pure] at h
        exact ih _ _ _ h hwf hz hpred hsucc
      · split at h
        · exact Except.noConfusion h
        · split at h
          · exact Except.noConfusion h
          · split at h
            · split at h
              · exact ih _ _ _ h hwf hz hpred hsucc
              · split at h
                · exact Except.noConfusion h
                · rename_i g3 hmv
                  exact ih _ _ _ h (moveNodeLayer_LayerWF hwf hmv)
                    (atZero_moveNodeLayer hwf hz hid hmv)
                    (by rw [predNodes_core (moveNodeLayer_core hmv)]; exact hpred)
                    (by rw [succNodes_core (moveNodeLayer_core hmv)]; exact hsucc)
            · split at h
              · exact ih _ _ _ h hwf hz hpred hsucc
              · split at h
                · exact Except.noConfusion h
                · rename_i g3 hmv
                  exact ih _ _ _ h (moveNodeLayer_LayerWF hwf hmv)
                    (atZero_moveNodeLayer hwf hz hid hmv)
                    (by rw [predNodes_core (moveNodeLayer_core hmv)]; exact hpred)
                    (by rw [succNodes_core (moveNodeLayer_core hmv)]; exact hsucc)

/-- Phase 2 skips childless nodes, so it never moves an isolated node
parked at layer 0. -/
theorem phase2Bucket_atZero :
    ∀ (fuel : Nat) (g : GState) (byLayer : AMap Nat SSet) (lid curLayer pos : Nat)
      {g' : GState} {byLayer' : AMap Nat SSet} {id : String},
      phase2Bucket fuel g byLayer lid curLayer pos = .ok (g', byLayer') →
      LayerWF g → AtZero g id → predNodes g id = [] → succNodes g id = [] →
      AtZero g' id := by
  intro fuel
  induction fuel with
  | zero =>
    intro g byLayer lid curLayer pos g' byLayer' id h _ _ _ _
    unfold phase2Bucket at h
    exact Except.noConfusion h
  | succ fuel ih =>
    intro g byLayer lid curLayer pos g' byLayer' id h hwf hz hpred hsucc
    unfold phase2Bucket at h
    cases hg : ((aget byLayer lid).getD []).get? pos with
    | none =>
      simp only [hg] at h
      injection h with h2
      injection h2 with h3 h4
      rw [← h3]
      exact hz
    | some pid =>
      simp only [hg] at h
      by_cases hid : pid = id
      · subst hid
        simp only [hsucc, List.isEmpty_nil, if_true] at h
        exact ih _ _ _ _ _ h hwf hz hpred hsucc
      · split at h
        · exact ih _ _ _ _ _ h hwf hz hpred hsucc
        · split at h
          · exact Except.noConfusion h
          · split at h
            · exact ih _ _ _ _ _ h hwf hz hpred hsucc
            · split at h
              · exact Except.noConfusion h
              · rename_i g3 hmv
                exact ih _ _ _ _ _ h (moveNodeLayer_LayerWF hwf hmv)
                  (atZero_moveNodeLayer hwf hz hid hmv)
                  (by rw [predNodes_core (moveNodeLayer_core hmv)]; exact hpred)
                  (by rw [succNodes_core (moveNodeLayer_core hmv)]; exact hsucc)

theorem phase2Go_atZero :
    ∀ (fuel : Nat) (g : GState) (byLayer : AMap Nat SSet) (lids : List Nat) {g' : GState}
      {id : String},
      phase2Go fuel g byLayer lids = .ok g' → LayerWF g → AtZero g id →
      predNodes g id = [] → succNodes g id = [] → AtZero g' id := by
  intro fuel
  induction fuel with
  | zero =>
    intro g byLayer lids g' id h _ _ _ _
    unfold phase2Go at h
    exact Except.noConfusion h
  | succ fuel ih =>
    intro g byLayer lids g' id h hwf hz hpred hsucc
    unfold phase2Go at h
    cases lids with
    | nil =>
      injection h with h2
      rw [← h2]
      exact hz
    | cons lid rest =>
      cases hgl : aget g.layers lid with
      | none =>
        simp only [hgl] at h
        exact Except.noConfusion h
      | some l =>
        simp only [hgl] at h
        split at h
        · exact Except.noConfusion h
        · rename_i g2 byLayer2 hb
          have hsc := phase2Bucket_core _ _ _ _ _ _ hb
          exact ih _ _ _ h (phase2Bucket_LayerWF _ _ _ _ _ _ hb hwf)
            (phase2Bucket_atZero _ _ _ _ _ _ hb hwf hz hpred hsucc)
            (by rw [predNodes_core hsc]; exact hpred)
            (by rw [succNodes_core hsc]; exact hsucc)

theorem updateLayers_atZero {g : GState} {dirty : SSet} {g' : GState} {id : String}
    (h : updateLayers g dirty = .ok g') (hwf : LayerWF g) (hz : AtZero g id)
    (hpred : predNodes g id = []) (hsucc : succNodes g id = []) : AtZero g' id := by
  unfold updateLayers at h
  split at h
  · exact Except.noConfusion h
  · rename_i g1 ph2 hp
    have hsc := phase1_core _ _ _ _ hp
    exact phase2Go_atZero _ _ _ _ h (phase1_LayerWF _ _ _ _ hp hwf)
      (phase1_atZero _ _ _ _ hp hwf hz hpred hsucc)
      (by rw [predNodes_core hsc]; exact hpred)
      (by rw [succNodes_core hsc]; exact hsucc)

/-- The added-nodes loop points every added id (and every id already
accumulated in the layer-0 node set) at the layer-0 id and accumulates it
into the node set. -/
theorem addNodesLoop_places (lid : Nat) :
    ∀ (ns : List Node) (g : GState) (s : SSet) {id : String},
      (id ∈ ns.map Node.id ∨ (aget g.layerMap id = some lid ∧ id ∈ s)) →
      aget (addNodesLoop lid ns g s).1.layerMap id = some lid ∧
      id ∈ (addNodesLoop lid ns g s).2 := by
  intro ns
  induction ns with
  | nil =>
    intro g s id hyp
    rcases hyp with h | ⟨h1, h2⟩
    · exact absurd h (by simp)
    · exact ⟨h1, h2⟩
  | cons n t ih =>
    intro g s id hyp
    apply ih
    rcases hyp with h | ⟨h1, h2⟩
    · rw [List.map_cons, List.mem_cons] at h
      rcases h with h | h
      · right
        constructor
        · show aget (aset g.layerMap n.id lid) id = some lid
          rw [h]
          exact aget_aset_self ..
        · rw [h]
          exact mem_sadd_self ..
      · exact Or.inl h
    · right
      refine ⟨?_, mem_sadd_of_mem _ h2⟩
      show aget (aset g.layerMap n.id lid) id = some lid
      by_cases he : id = n.id
      · rw [he]
        exact aget_aset_self ..
      · rw [aget_aset_ne he]
        exact h1

/-- The removed-nodes loop leaves a parked node alone when the node itself
is not removed. -/
theorem removeNodesLoop_atZero :
    ∀ (ns : List Node) (g : GState) (ex : List Edge) {g' : GState} {ex' : List Edge}
      {id : String},
      removeNodesLoop ns g ex = .ok (g', ex') → LayerWF g →
      (∀ n ∈ ns, n.id ≠ id) → AtZero g id → AtZero g' id := by
  intro ns
  induction ns with
  | nil =>
    intro g ex g' ex' id h _ _ hz
    injection h with h2
    injection h2 with h3 h4
    rw [← h3]
    exact hz
  | cons n t ih =>
    intro g ex g' ex' id h hwf hrem hz
    unfold removeNodesLoop at h
    cases hly : (aget g.layerMap n.id).bind (aget g.layers) with
    | none =>
      simp only [hly] at h
      exact Except.noConfusion h
    | some l =>
      simp only [hly] at h
      obtain ⟨olid, hmapn, hlayn⟩ := Option.bind_eq_some.mp hly
      obtain ⟨_, hlidn⟩ := layerWF_pos_of_aget hwf hlayn
      have hne : n.id ≠ id := hrem n (List.mem_cons_self _ _)
      obtain ⟨lid, l0, hm, hl0, hi, hmem⟩ := hz
      have hz2 : AtZero { g with
          layers := aset g.layers l.id { id := l.id, index := l.index, nodes := sdel l.nodes n.id }
          nodeMap := adel g.nodeMap n.id
          predMap := adel g.predMap n.id
          succMap := adel g.succMap n.id
          layerMap := adel g.layerMap n.id } id := by
        by_cases he : l.id = lid
        · have hoo : olid = lid := hlidn ▸ he
          have hll : l = l0 := by
            rw [hoo, hl0] at hlayn
            injection hlayn with h6
            exact h6.symm
          refine ⟨lid, { id := l.id, index := l.index, nodes := sdel l.nodes n.id },
            ?_, ?_, ?_, ?_⟩
          · show aget (adel g.layerMap n.id) id = some lid
            rw [aget_adel_ne (Ne.symm hne)]
            exact hm
          · show aget (aset g.layers l.id _) lid = _
            rw [← he]
            exact aget_aset_self ..
          · show l.index = 0
            rw [hll]
            exact hi
          · exact mem_sdel_of_ne (hll ▸ hmem) (Ne.symm hne)
        · refine ⟨lid, l0, ?_, ?_, hi, hmem⟩
          · show aget (adel g.layerMap n.id) id = some lid
            rw [aget_adel_ne (Ne.symm hne)]
            exact hm
          · show aget (aset g.layers l.id _) lid = some l0
            rw [aget_aset_ne (Ne.symm he)]
            exact hl0
      apply ih _ _ h ?_ (fun m hm2 => hrem m (List.mem_cons_of_mem _ hm2)) hz2
      exact layerWF_of_fields rfl rfl rfl (layerWF_set_nodes hwf hlayn _)

theorem addEdgesLoop_layerMap :
    ∀ (es : List Edge) (g : GState) {g' : GState}, addEdgesLoop es g = .ok g' →
      g'.layerMap = g.layerMap := by
  intro es
  induction es with
  | nil =>
    intro g g' h
    injection h with h2
    rw [← h2]
  | cons e t ih =>
    intro g g' h
    unfold addEdgesLoop at h
    dsimp only at h
    split at h
    · exact Except.noConfusion h
    · split at h
      · exact Except.noConfusion h
      · have hrec := ih _ h
        exact hrec

theorem removeEdgesLoop_layerMap :
    ∀ (es : List Edge) (g : GState), (removeEdgesLoop es g).layerMap = g.layerMap := by
  intro es
  induction es with
  | nil => intro g; rfl
  | cons e t ih =>
    intro g
    unfold removeEdgesLoop
    dsimp only
    repeat' split
    all_goals exact ih _

theorem applyNodePhases_atZero {g : GState} {c : Changes} {gA : GState} {ra : List Edge}
    {id : String}
    (h : applyNodePhases g c = .ok (gA, ra)) (hwf : LayerWF g)
    (hadd : id ∈ c.addedNodes.map Node.id)
    (hrem : ∀ n ∈ c.removedNodes, n.id ≠ id) : AtZero gA id := by
  unfold applyNodePhases at h
  cases hlb : layerByIndex g 0 with
  | mk g0 lo =>
    have hfst := layerByIndex_fst g 0
    rw [hlb] at hfst
    dsimp only at hfst
    have hwf0 : LayerWF g0 := by
      rw [hfst]
      exact pushLayer_iter_LayerWF _ hwf
    simp only [hlb] at h
    cases lo with
    | none => exact Except.noConfusion h
    | some layer =>
      have hlb2 : layerLookup (pushLayer^[((0 : Int) + 1 - (g.layerList.length : Int)).toNat] g) 0
          = (g0, some layer) := hlb
      obtain ⟨hg0eq, lid0, hwrap, hlayP⟩ := layerLookup_some hlb2
      have hlay : aget g0.layers lid0 = some layer := by
        rw [hg0eq]
        exact hlayP
      have hget0 : g0.layerList.get? 0 = some lid0 := by
        rw [hg0eq]
        simpa [listGetWrap] using hwrap
      have hlayer0 : layer.index = 0 ∧ layer.id = lid0 := by
        obtain ⟨l2, h1, h2, h3⟩ := hwf0.2.2.1 0 lid0 hget0
        rw [hlay] at h1
        injection h1 with h4
        rw [← h4] at h2 h3
        exact ⟨h3, h2⟩
      unfold applyNodePhasesAux at h
      have hpl := addNodesLoop_places layer.id c.addedNodes g0 layer.nodes (Or.inl hadd)
      have hf := addNodesLoop_layerFields layer.id c.addedNodes g0 layer.nodes
      have hwfP : LayerWF (addNodesLoop layer.id c.addedNodes g0 layer.nodes).1 :=
        layerWF_of_fields hf.1 hf.2.1 hf.2.2 hwf0
      have hlayP2 : aget (addNodesLoop layer.id c.addedNodes g0 layer.nodes).1.layers lid0
          = some layer := by
        rw [hf.1]
        exact hlay
      apply removeNodesLoop_atZero _ _ _ h ?_ hrem ?_
      · exact layerWF_of_fields rfl rfl rfl (layerWF_set_nodes hwfP hlayP2 _)
      · refine ⟨layer.id,
          { id := layer.id, index := layer.index,
            nodes := (addNodesLoop layer.id c.addedNodes g0 layer.nodes).2 }, ?_, ?_, ?_, ?_⟩
        · exact hpl.1
        · exact aget_aset_self ..
        · exact hlayer0.1
        · exact hpl.2

theorem applyChanges_atZero {g : GState} {c : Changes} {g1 : GState} {ra : List Edge}
    {id : String}
    (h : applyChanges g c = .ok (g1, ra)) (hwf : LayerWF g)
    (hadd : id ∈ c.addedNodes.map Node.id)
    (hrem : ∀ n ∈ c.removedNodes, n.id ≠ id) : AtZero g1 id := by
  unfold applyChanges at h
  split at h
  · exact Except.noConfusion h
  · rename_i gA removedAll hnp
    split at h
    · exact Except.noConfusion h
    · rename_i gB hadd2
      injection h with h2
      injection h2 with h3 h4
      rw [← h3]
      have hzA : AtZero gA id := applyNodePhases_atZero hnp hwf hadd hrem
      have hzB : AtZero gB id := atZero_of_fields (addEdgesLoop_layerMap _ _ hadd2)
        (addEdgesLoop_layerFields _ _ hadd2).1 hzA
      exact atZero_of_fields (removeEdgesLoop_layerMap removedAll gB)
        (removeEdgesLoop_layerFields removedAll gB).1 hzB

/-- C8 (amended): a node added by the batch, not also removed by it, and
isolated in the applied graph (no predecessors and no successors) is
assigned layer index 0 in the committed graph.  The claim's unrestricted
form is false: phase 2 of `_updateLayers` pulls any parentless node *with*
children down to `min(child layers) − 1`, so the suite's own scenario
commits `n4` (empty `predNodes`) at layer 1 (`C8_counterexample`). -/
theorem C8_isolated_added_at_zero (g : GState) (c : Changes) (g1 : GState)
    (removedAll : List Edge) (gf : GState) (id : String)
    (hwf : LayerWF g)
    (happ : applyChanges g c = .ok (g1, removedAll))
    (hadd : id ∈ c.addedNodes.map Node.id)
    (hrem : ∀ n ∈ c.removedNodes, n.id ≠ id)
    (hpred : predNodes g1 id = [])
    (hsucc : succNodes g1 id = [])
    (hrun : runUpdate g c = .ok gf) :
    layerOf? gf id = some 0 := by
  have hz1 : AtZero g1 id := applyChanges_atZero happ hwf hadd hrem
  have hwf1 : LayerWF g1 := applyChanges_LayerWF happ hwf
  unfold runUpdate at hrun
  rw [happ] at hrun
  dsimp only at hrun
  split at hrun
  · exact Except.noConfusion hrun
  · have hzf : AtZero gf id := updateLayers_atZero hrun hwf1 hz1 hpred hsucc
    obtain ⟨lid, l, hm, hl, hi, _⟩ := hzf
    simp only [layerOf?, hm, hl, Option.map_some', hi]

/-- Witness for `C8_isolated_added_at_zero`: the single isolated node
`n1` added to the empty graph commits at layer 0. -/
theorem C8_isolated_added_witness :
    layerOf? (okState solePre) "n1" = some 0 :=
  C8_isolated_added_at_zero emptyGState { addedNodes := [mkNode "n1"] }
    (okState (applyChanges emptyGState { addedNodes := [mkNode "n1"] } |>.map Prod.fst))
    [] (okState solePre) "n1" layerWF_empty rfl (by decide)
    (fun n hn => absurd hn (List.not_mem_nil _)) rfl rfl rfl
